import Mathlib

/-!
Verification of the transaction-tracker repository against its design
specification.

The embedding translates the TypeScript sources (`src/bot.ts`,
`src/monitor.ts`, `src/ether-scan.ts`, `src/types.ts`) into Lean
definitions.  JavaScript numbers are modelled as `Int` (block
checkpoints) or `Rat` (ether values); machine strings are modelled as
`String` or, for the character-level message splitter, as `List Char`.
External effects (the Etherscan fetch, Alchemy lookups, Telegram
delivery) are modelled as explicit oracles passed into each cycle, so
that the control flow of the source is reproduced exactly while the
network is kept abstract.
-/

namespace Tracker

/-! ## Message dispatcher (`src/bot.ts`) -/

/-- A queued outbound message (`QueuedMessage` in `bot.ts`):
`{ message, chatId, retryCount }`. -/
structure QueuedMessage where
  message : String
  chatId : String
  retryCount : Nat
  deriving Repr, DecidableEq

/-- Constant `Bot.MAX_RETRIES = 3` in `bot.ts`. -/
def MAX_RETRIES : Nat := 3

/-- Constant `Bot.RATE_LIMIT_WAIT_TIME = 13000` milliseconds in `bot.ts`. -/
def RATE_LIMIT_WAIT_TIME : Nat := 13000

/-- Outcome of one Telegram `bot.sendMessage` call, as distinguished by
the `catch` branch of `Bot.sendSingleMessage`: success, an error whose
text contains "429"/"Too Many Requests", or any other error. -/
inductive SendOutcome where
  | delivered
  | rateLimited
  | otherError
  deriving Repr, DecidableEq

/-- Result of one `Bot.sendSingleMessage` call: whether the head message
is to be removed from the queue, the (possibly retry-bumped) message,
and how long the call slept. -/
structure SendStep where
  shouldRemove : Bool
  updated : QueuedMessage
  sleptMs : Nat
  deriving Repr, DecidableEq

/-- Function `Bot.sendSingleMessage` from `bot.ts`, with the Telegram call
abstracted into its observed `SendOutcome`:
on success return `true` (remove); on a rate-limit error sleep
`RATE_LIMIT_WAIT_TIME` and return `false` without touching
`retryCount`; on any other error increment `retryCount` and return
`false` while `retryCount < MAX_RETRIES`, else return `true`. -/
def sendSingleMessage (q : QueuedMessage) (o : SendOutcome) : SendStep :=
  match o with
  | .delivered => ⟨true, q, 0⟩
  | .rateLimited => ⟨false, q, RATE_LIMIT_WAIT_TIME⟩
  | .otherError =>
      if q.retryCount < MAX_RETRIES then
        ⟨false, { q with retryCount := q.retryCount + 1 }, 0⟩
      else
        ⟨true, q, 0⟩

/-- The `while (this.messageQueue.length > 0)` loop of
`Bot.processMessageQueue`: attempt delivery of the head message only;
`shift` it off when `sendSingleMessage` says so, otherwise keep the
updated head.  The trace `os` of per-attempt outcomes drives the loop;
when the trace is exhausted the current queue is returned. -/
def processMessageQueue : List QueuedMessage → List SendOutcome → List QueuedMessage
  | [], _ => []
  | q, [] => q
  | m :: rest, o :: os =>
      let s := sendSingleMessage m o
      if s.shouldRemove then processMessageQueue rest os
      else processMessageQueue (s.updated :: rest) os

/-- Whitespace as recognised by JavaScript `String.prototype.trim`
(restricted to the ASCII whitespace actually occurring in this
program's messages). -/
def isWsChar (c : Char) : Bool := c = ' ' ∨ c = '\n' ∨ c = '\t' ∨ c = '\r'

/-- JavaScript `String.prototype.trim` on a character list: drop
whitespace from both ends. -/
def jsTrimList (l : List Char) : List Char :=
  ((l.dropWhile isWsChar).reverse.dropWhile isWsChar).reverse

/-- JavaScript `String.prototype.trim` on a `String`. -/
def jsTrimStr (s : String) : String := ⟨jsTrimList s.data⟩

/-- A JavaScript value passed in the `messages` array of
`Bot.sendMessage`: either a string or some non-string value. -/
inductive JsVal where
  | str (s : String)
  | nonString
  deriving Repr, DecidableEq

/-- The enqueue part of `Bot.sendMessage(messages, chatId)` from
`bot.ts` (validation plus the append loop; the subsequent
`processMessageQueue` trigger is modelled separately by
`processMessageQueue`).  `none` for `messages` models a non-array
argument; an empty `chatId` is the falsy case of `!chatId`. -/
def sendMessageEnqueue (queue : List QueuedMessage)
    (messages : Option (List JsVal)) (chatId : String) :
    Except String (List QueuedMessage) :=
  match messages with
  | none => .error "Invalid input: messages must be an array and chatId must be provided"
  | some ms =>
      if chatId = "" then
        .error "Invalid input: messages must be an array and chatId must be provided"
      else
        .ok (queue ++ ms.filterMap (fun v =>
          match v with
          | .str s => if jsTrimStr s ≠ "" then some ⟨jsTrimStr s, chatId, 0⟩ else none
          | .nonString => none))

lemma processMessageQueue_err_step (m : QueuedMessage) (rest : List QueuedMessage)
    (os : List SendOutcome) (h : m.retryCount < MAX_RETRIES) :
    processMessageQueue (m :: rest) (.otherError :: os) =
      processMessageQueue ({ m with retryCount := m.retryCount + 1 } :: rest) os := by
  simp [processMessageQueue, sendSingleMessage, h]

lemma processMessageQueue_err_drop (m : QueuedMessage) (rest : List QueuedMessage)
    (os : List SendOutcome) (h : ¬ m.retryCount < MAX_RETRIES) :
    processMessageQueue (m :: rest) (.otherError :: os) = processMessageQueue rest os := by
  simp [processMessageQueue, sendSingleMessage, h]

/-- C3 (counterexample): a head message with `retryCount = 0` whose
delivery fails with a non-rate-limit error on every attempt is *not*
removed from the queue after `MAX_RETRIES = 3` delivery attempts: after
three failing attempts it is still queued (with `retryCount = 3`), so
the claim "removed after exactly `MAX_RETRIES` attempts" is false. -/
theorem C3_counterexample :
    processMessageQueue [⟨"m", "c", 0⟩]
        [.otherError, .otherError, .otherError] = [⟨"m", "c", 3⟩] ∧
      processMessageQueue [⟨"m", "c", 0⟩]
        [.otherError, .otherError, .otherError] ≠ [] := by
  constructor
  · rfl
  · intro h
    rw [show processMessageQueue [⟨"m", "c", 0⟩]
        [.otherError, .otherError, .otherError] = [⟨"m", "c", 3⟩] from rfl] at h
    exact List.cons_ne_nil _ _ h

/-- C3 (amended): a queued message with `retryCount = 0` that always
fails with a non-rate-limit error is removed from the queue after
exactly `MAX_RETRIES + 1 = 4` delivery attempts (the initial attempt
plus `MAX_RETRIES` retries), after which processing continues with the
remaining queue and the message never reappears; after only
`MAX_RETRIES` failing attempts it is still at the head of the queue. -/
theorem C3_amended (m : QueuedMessage) (rest : List QueuedMessage)
    (os : List SendOutcome) (h0 : m.retryCount = 0) :
    processMessageQueue (m :: rest)
        (List.replicate (MAX_RETRIES + 1) .otherError ++ os) =
      processMessageQueue rest os ∧
    processMessageQueue [m] (List.replicate MAX_RETRIES .otherError) =
      [{ m with retryCount := MAX_RETRIES }] := by
  obtain ⟨msg, cid, rc⟩ := m
  simp only [QueuedMessage.mk.injEq] at h0 ⊢
  subst h0
  constructor
  · show processMessageQueue _ ([.otherError, .otherError, .otherError, .otherError] ++ os) = _
    rw [List.cons_append, processMessageQueue_err_step _ _ _ (by simp [MAX_RETRIES])]
    rw [List.cons_append, processMessageQueue_err_step _ _ _ (by simp [MAX_RETRIES])]
    rw [List.cons_append, processMessageQueue_err_step _ _ _ (by simp [MAX_RETRIES])]
    rw [List.cons_append, processMessageQueue_err_drop _ _ _ (by simp [MAX_RETRIES])]
    rw [List.nil_append]
  · rfl

/-- C3 (witness): concrete instance of `C3_amended`. -/
theorem C3_amended_witness :
    processMessageQueue [⟨"w", "c", 0⟩]
        (List.replicate (MAX_RETRIES + 1) .otherError ++ []) =
      processMessageQueue [] [] ∧
    processMessageQueue [⟨"w", "c", 0⟩] (List.replicate MAX_RETRIES .otherError) =
      [{ message := "w", chatId := "c", retryCount := MAX_RETRIES }] :=
  C3_amended ⟨"w", "c", 0⟩ [] [] rfl

/-- C7: a delivery attempt that fails with a provider rate-limit error
(HTTP 429 or equivalent) neither removes the head message from the
queue nor increments its `retryCount`; it sleeps the fixed cooldown
`RATE_LIMIT_WAIT_TIME = 13000` ms and the processing loop retries the
very same queue (same message at the head), so such a message is never
dropped by a rate-limit failure. -/
theorem C7_rate_limited_retained (m : QueuedMessage) (rest : List QueuedMessage)
    (os : List SendOutcome) :
    sendSingleMessage m .rateLimited = ⟨false, m, RATE_LIMIT_WAIT_TIME⟩ ∧
    RATE_LIMIT_WAIT_TIME = 13000 ∧
    processMessageQueue (m :: rest) (.rateLimited :: os) =
      processMessageQueue (m :: rest) os := by
  refine ⟨rfl, rfl, ?_⟩
  simp [processMessageQueue, sendSingleMessage]

lemma enqueue_projection (cid : String) (l : List JsVal) :
    (l.filterMap (fun v =>
        match v with
        | .str s => if jsTrimStr s ≠ "" then some (⟨jsTrimStr s, cid, 0⟩ : QueuedMessage) else none
        | .nonString => none)).map (fun qm => (qm.message, qm.chatId, qm.retryCount)) =
      ((l.filterMap (fun v =>
          match v with
          | .str s => some (jsTrimStr s)
          | .nonString => none)).filter (· ≠ "")).map (fun s => (s, cid, 0)) := by
  induction l with
  | nil => rfl
  | cons v tl ih =>
      cases v with
      | nonString => simpa [List.filterMap_cons] using ih
      | str s =>
          by_cases hs : jsTrimStr s = ""
          · simpa [List.filterMap_cons, hs] using ih
          · simpa [List.filterMap_cons, hs] using ih

/-- C10: the enqueue operation `Bot.sendMessage(messages, chatId)`
throws if and only if `messages` is not an array or `chatId` is empty;
otherwise every entry that is a string with non-empty trim is appended
to the queue trimmed with `retryCount = 0` (and the given `chatId`),
non-string or blank entries are silently skipped, and the pre-existing
queue elements are left untouched as a prefix of the result. -/
theorem C10_enqueue_spec :
    (∀ (q : List QueuedMessage) (ms : Option (List JsVal)) (cid : String),
      (∃ e, sendMessageEnqueue q ms cid = .error e) ↔ (ms = none ∨ cid = "")) ∧
    (∀ (q : List QueuedMessage) (l : List JsVal) (cid : String) (r : List QueuedMessage),
      sendMessageEnqueue q (some l) cid = .ok r →
        q <+: r ∧
        (r.drop q.length).map (fun qm => (qm.message, qm.chatId, qm.retryCount)) =
          ((l.filterMap (fun v =>
              match v with
              | .str s => some (jsTrimStr s)
              | .nonString => none)).filter (· ≠ "")).map (fun s => (s, cid, 0))) := by
  constructor
  · intro q ms cid
    constructor
    · rintro ⟨e, he⟩
      match ms with
      | none => exact Or.inl rfl
      | some l =>
          by_cases hc : cid = ""
          · exact Or.inr hc
          · simp [sendMessageEnqueue, hc] at he
    · rintro (h | h)
      · subst h; exact ⟨_, rfl⟩
      · subst h
        match ms with
        | none => exact ⟨_, rfl⟩
        | some l =>
            exact ⟨"Invalid input: messages must be an array and chatId must be provided",
              by simp [sendMessageEnqueue]⟩
  · intro q l cid r hr
    by_cases hc : cid = ""
    · simp [sendMessageEnqueue, hc] at hr
    · simp only [sendMessageEnqueue, if_neg hc] at hr
      cases hr
      refine ⟨List.prefix_append _ _, ?_⟩
      rw [List.drop_left]
      exact enqueue_projection cid l

/-- C10 (witness): concrete instance of `C10_enqueue_spec`: a non-array
argument throws, and enqueueing `[" a ", "", non-string, "b"]` appends
exactly the trimmed non-blank strings. -/
theorem C10_enqueue_spec_witness :
    (∃ e, sendMessageEnqueue [] none "chat" = .error e) ∧
    ([⟨"old", "chat", 1⟩] : List QueuedMessage) <+:
      [⟨"old", "chat", 1⟩, ⟨"a", "chat", 0⟩, ⟨"b", "chat", 0⟩] ∧
    (([⟨"old", "chat", 1⟩, ⟨"a", "chat", 0⟩, ⟨"b", "chat", 0⟩] : List QueuedMessage).drop
        ([⟨"old", "chat", 1⟩] : List QueuedMessage).length).map
        (fun qm => (qm.message, qm.chatId, qm.retryCount)) =
      ((([JsVal.str " a ", JsVal.str "", JsVal.nonString, JsVal.str "b"]).filterMap (fun v =>
          match v with
          | .str s => some (jsTrimStr s)
          | .nonString => none)).filter (· ≠ "")).map (fun s => (s, "chat", 0)) := by
  refine ⟨(C10_enqueue_spec.1 [] none "chat").2 (Or.inl rfl), ?_, ?_⟩
  · exact (C10_enqueue_spec.2 [⟨"old", "chat", 1⟩]
      [JsVal.str " a ", JsVal.str "", JsVal.nonString, JsVal.str "b"] "chat"
      [⟨"old", "chat", 1⟩, ⟨"a", "chat", 0⟩, ⟨"b", "chat", 0⟩] (by rfl)).1
  · exact (C10_enqueue_spec.2 [⟨"old", "chat", 1⟩]
      [JsVal.str " a ", JsVal.str "", JsVal.nonString, JsVal.str "b"] "chat"
      [⟨"old", "chat", 1⟩, ⟨"a", "chat", 0⟩, ⟨"b", "chat", 0⟩] (by rfl)).2

/-! ## Pattern classifier (`monitor.ts`)

Ether values (`parseFloat(tx.value) / 1e18`) are modelled as rationals;
the decimal literals `0.027`, `1e-8`, … of the source are exact in `ℚ`.
-/

/-- Function `TransactionMonitor.determineRange` from `monitor.ts`: bucket a value
into the `start` / `middle` / `end` bands, checked in that order. -/
def determineRange (value : ℚ) : String :=
  if 0.027 ≤ value ∧ value ≤ 0.045 then "start"
  else if 0.05 ≤ value ∧ value ≤ 0.15 then "middle"
  else if 0.15 ≤ value ∧ value ≤ 0.38 then "end"
  else "unknown"

/-- Function `TransactionMonitor.isUniform`: every value within `1e-15` of the
first (vacuously true on the empty list, as `Array.prototype.every`). -/
def isUniform (values : List ℚ) : Bool :=
  match values with
  | [] => true
  | v0 :: _ => values.all (fun v => |v - v0| < 1e-15)

/-- Function `TransactionMonitor.checkGeometricProgression`: on the ascending
list, the first consecutive ratio, accepted only when every consecutive
ratio matches it within the magnitude-dependent tolerance. -/
def checkGeometricProgression (sorted : List ℚ) : Option ℚ :=
  match sorted with
  | v0 :: v1 :: _ =>
      let r := v1 / v0
      let eps : ℚ := if v0 > 0.1 then 1e-8 else 1e-15
      if (sorted.zip sorted.tail).all (fun p => |p.2 / p.1 - r| ≤ eps) then some r
      else none
  | _ => none

/-- Function `TransactionMonitor.checkSteppedDistribution`: the first consecutive
difference, accepted only when every consecutive difference matches it
within `1e-8`. -/
def checkSteppedDistribution (sorted : List ℚ) : Option ℚ :=
  match sorted with
  | v0 :: v1 :: _ =>
      let inc := v1 - v0
      if (sorted.zip sorted.tail).all (fun p => |p.2 - p.1 - inc| ≤ 1e-8) then some inc
      else none
  | _ => none

/-- Digits after the decimal point of a value's decimal representation
(`v.toString().split(".")[1].length` in `calculatePrecision`), modelled
for terminating decimals as the least `n` with `q * 10^n` integral. -/
def decimalDigits (q : ℚ) : Nat :=
  ((List.range 101).find? (fun n => (q * (10 : ℚ) ^ n).den = 1)).getD 0

/-- Function `TransactionMonitor.calculatePrecision`: maximum decimal-digit count
over the values (`Math.max` over the mapped list; `0` on empty). -/
def calculatePrecision (values : List ℚ) : Nat :=
  (values.map decimalDigits).foldl max 0

/-- Record `PatternAnalysis` from `monitor.ts` (the `ratio` field is named
`ratioVal` here). -/
structure PatternAnalysis where
  type : String
  startValue : ℚ
  endValue : ℚ
  precision : Nat
  ratioVal : Option ℚ
  increment : Option ℚ
  range : String
  deriving Repr, DecidableEq

/-- The stepped/varied tail of `TransactionMonitor.analyzePattern`: the
source guards the stepped branch with JavaScript truthiness
(`if (increment)`), so a zero increment falls through to `varied`. -/
def steppedOrVaried (sorted : List ℚ) (startValue endValue : ℚ)
    (precision : Nat) (rng : String) : PatternAnalysis :=
  match checkSteppedDistribution sorted with
  | some inc =>
      if inc ≠ 0 then ⟨"stepped", startValue, endValue, precision, none, some inc, rng⟩
      else ⟨"varied", startValue, endValue, precision, none, none, rng⟩
  | none => ⟨"varied", startValue, endValue, precision, none, none, rng⟩

/-- Function `TransactionMonitor.analyzePattern` from `monitor.ts`: sort
ascending, then test uniform → geometric (relabelled `high-precision`
when more than 8 decimals) → stepped → varied; the geometric branch is
guarded by JavaScript truthiness (`if (geoRatio)`), so a zero ratio
falls through.  `range` buckets the minimum (sorted head). -/
def analyzePattern (values : List ℚ) : PatternAnalysis :=
  let sorted := List.insertionSort (· ≤ ·) values
  let startValue := sorted.headD 0
  let endValue := sorted.getLastD 0
  let precision := calculatePrecision values
  let rng := determineRange startValue
  if isUniform values then
    ⟨"uniform", startValue, endValue, precision, none, none, rng⟩
  else
    match checkGeometricProgression sorted with
    | some r =>
        if r ≠ 0 then
          ⟨if precision > 8 then "high-precision" else "geometric",
            startValue, endValue, precision, some r, none, rng⟩
        else steppedOrVaried sorted startValue endValue precision rng
    | none => steppedOrVaried sorted startValue endValue precision rng

lemma analyzePattern_range (values : List ℚ) :
    (analyzePattern values).range =
      determineRange ((List.insertionSort (· ≤ ·) values).headD 0) := by
  unfold analyzePattern
  dsimp only
  split
  · rfl
  · split
    · split
      · rfl
      · unfold steppedOrVaried
        split
        · split <;> rfl
        · rfl
    · unfold steppedOrVaried
      split
      · split <;> rfl
      · rfl

lemma insertionSort_headD_eq_min (values : List ℚ) (m : ℚ)
    (hmem : m ∈ values) (hmin : ∀ v ∈ values, m ≤ v) :
    (List.insertionSort (· ≤ ·) values).headD 0 = m := by
  have hperm : (List.insertionSort (fun a b : ℚ => a ≤ b) values).Perm values :=
    List.perm_insertionSort _ values
  have hsorted : List.Sorted (fun a b : ℚ => a ≤ b)
      (List.insertionSort (fun a b : ℚ => a ≤ b) values) :=
    List.sorted_insertionSort _ values
  obtain ⟨h, t, ht⟩ : ∃ h t,
      List.insertionSort (fun a b : ℚ => a ≤ b) values = h :: t := by
    cases hs : List.insertionSort (fun a b : ℚ => a ≤ b) values with
    | nil =>
        exfalso
        have hnil : values = [] := List.Perm.nil_eq (hs ▸ hperm) |>.symm
        rw [hnil] at hmem
        exact List.not_mem_nil m hmem
    | cons h t => exact ⟨h, t, rfl⟩
  rw [ht]
  have hmem' : m ∈ h :: t := (ht ▸ hperm).mem_iff.mpr hmem
  have hhead : h ∈ values := (ht ▸ hperm).mem_iff.mp (List.mem_cons_self h t)
  have hle : m ≤ h := hmin h hhead
  rw [ht] at hsorted
  rcases List.mem_cons.mp hmem' with h1 | h1
  · simpa using h1.symm
  · have := (List.sorted_cons.mp hsorted).1 m h1
    simpa using le_antisymm this hle

/-- C9: the classifier's range bands are tested in the order start,
middle, end, so a value list whose minimum is exactly `0.15` — where the
middle band `[0.05, 0.15]` and the end band `[0.15, 0.38]` overlap — is
classified with range `"middle"`, never `"end"`. -/
theorem C9_band_order (values : List ℚ)
    (hmem : (0.15 : ℚ) ∈ values) (hmin : ∀ v ∈ values, (0.15 : ℚ) ≤ v) :
    (analyzePattern values).range = "middle" ∧ (analyzePattern values).range ≠ "end" := by
  have h1 : (analyzePattern values).range = determineRange 0.15 := by
    rw [analyzePattern_range, insertionSort_headD_eq_min values 0.15 hmem hmin]
  have h2 : determineRange (0.15 : ℚ) = "middle" := by
    unfold determineRange
    norm_num
  rw [h1, h2]
  exact ⟨rfl, by simp⟩

/-- C9 (witness): concrete instance of `C9_band_order` at
`values = [0.2, 0.15]`. -/
theorem C9_band_order_witness :
    (analyzePattern [0.2, 0.15]).range = "middle" ∧
      (analyzePattern [0.2, 0.15]).range ≠ "end" :=
  C9_band_order [0.2, 0.15] (by norm_num)
    (by intro v hv; rcases List.mem_cons.mp hv with h | h
        · rw [h]; norm_num
        · simp only [List.mem_singleton] at h; rw [h])

/-! ## Transaction grouping (`monitor.ts`) -/

/-- Record `EtherscanTx` from `types.ts` (the fields used by the monitor; the
source's `from`/`to` are `fromAddr`/`toAddr` here since `from` is a
Lean keyword). -/
structure EtherscanTx where
  blockNumber : String
  timeStamp : String
  hash : String
  fromAddr : String
  toAddr : String
  value : String
  deriving Repr, DecidableEq

/-- JavaScript `parseInt` restricted to the non-negative decimal
strings returned by Etherscan: accumulate leading decimal digits
(sign/radix/NaN cases do not occur in this program's data). -/
def parseDecAux : List Char → Nat → Nat
  | [], acc => acc
  | c :: cs, acc => if c.isDigit then parseDecAux cs (acc * 10 + (c.toNat - 48)) else acc

/-- Parse `tx.blockNumber` as in `parseInt(tx.blockNumber)` of `monitorContracts`. -/
def parseBlockNumber (s : String) : Int := (parseDecAux s.data 0 : Int)

/-- One step of the `transactions.reduce(...)` accumulator building
`txsByBlock` in `monitorContracts`: append the transaction to the entry
keyed by its exact `blockNumber` string, creating the entry if absent
(`if (!acc[tx.blockNumber]) acc[tx.blockNumber] = []`). -/
def txsByBlockStep (acc : List (String × List EtherscanTx)) (tx : EtherscanTx) :
    List (String × List EtherscanTx) :=
  if acc.any (fun p => p.1 == tx.blockNumber) then
    acc.map (fun p => if p.1 == tx.blockNumber then (p.1, p.2 ++ [tx]) else p)
  else acc ++ [(tx.blockNumber, [tx])]

/-- Grouping `txsByBlock` from `monitorContracts`: the grouping of the fetched
transactions, keyed by the transaction's exact `blockNumber`. -/
def txsByBlock (txs : List EtherscanTx) : List (String × List EtherscanTx) :=
  txs.foldl txsByBlockStep []

/-- Two transactions land in the same group of the cycle's grouping. -/
def inSameGroup (txs : List EtherscanTx) (t1 t2 : EtherscanTx) : Prop :=
  ∃ p ∈ txsByBlock txs, t1 ∈ p.2 ∧ t2 ∈ p.2

/-- Well-formedness of a grouping accumulator: group keys are distinct
and every transaction in a group carries the group's key. -/
def goodAcc (acc : List (String × List EtherscanTx)) : Prop :=
  (acc.map Prod.fst).Nodup ∧ ∀ p ∈ acc, ∀ t ∈ p.2, t.blockNumber = p.1

/-- A transaction is stored in the accumulator under its own key. -/
def containsTx (acc : List (String × List EtherscanTx)) (t : EtherscanTx) : Prop :=
  ∃ l, (t.blockNumber, l) ∈ acc ∧ t ∈ l

lemma txsByBlockStep_good (acc : List (String × List EtherscanTx)) (tx : EtherscanTx)
    (h : goodAcc acc) : goodAcc (txsByBlockStep acc tx) := by
  obtain ⟨hnd, hkey⟩ := h
  unfold txsByBlockStep
  by_cases hmem : acc.any (fun p => p.1 == tx.blockNumber)
  · rw [if_pos hmem]
    constructor
    · have : (acc.map (fun p => if p.1 == tx.blockNumber then (p.1, p.2 ++ [tx]) else p)).map
          Prod.fst = acc.map Prod.fst := by
        rw [List.map_map]
        refine List.map_congr_left (fun p _ => ?_)
        by_cases hp : p.1 = tx.blockNumber <;> simp [hp]
      rw [this]; exact hnd
    · intro p' hp' t ht
      obtain ⟨p, hp, rfl⟩ := List.mem_map.mp hp'
      by_cases hpk : p.1 == tx.blockNumber
      · simp only [hpk, if_true] at ht ⊢
        rcases List.mem_append.mp ht with h1 | h1
        · exact hkey p hp t h1
        · rw [List.mem_singleton.mp h1]
          exact (beq_iff_eq.mp hpk).symm
      · simp only [hpk] at ht ⊢
        simp only [Bool.false_eq_true, if_false] at ht ⊢
        exact hkey p hp t ht
  · rw [if_neg hmem]
    constructor
    · rw [List.map_append]
      rw [List.nodup_append]
      refine ⟨hnd, List.nodup_singleton _, ?_⟩
      intro k hk hk'
      simp only [List.map_cons, List.map_nil, List.mem_singleton] at hk'
      subst hk'
      obtain ⟨p, hp, hpk⟩ := List.mem_map.mp hk
      rw [List.any_eq_true] at hmem
      exact hmem ⟨p, hp, beq_iff_eq.mpr hpk⟩
    · intro p hp t ht
      rcases List.mem_append.mp hp with h1 | h1
      · exact hkey p h1 t ht
      · rw [List.mem_singleton.mp h1] at ht ⊢
        exact List.mem_singleton.mp ht ▸ rfl

lemma txsByBlockStep_contains_new (acc : List (String × List EtherscanTx))
    (tx : EtherscanTx) : containsTx (txsByBlockStep acc tx) tx := by
  unfold txsByBlockStep
  by_cases hmem : acc.any (fun p => p.1 == tx.blockNumber)
  · rw [if_pos hmem]
    obtain ⟨p, hp, hpk⟩ := List.any_eq_true.mp hmem
    refine ⟨p.2 ++ [tx], ?_, List.mem_append_right _ (List.mem_singleton_self tx)⟩
    have hkeq : p.1 = tx.blockNumber := beq_iff_eq.mp hpk
    have : (tx.blockNumber, p.2 ++ [tx]) =
        (fun p => if p.1 == tx.blockNumber then (p.1, p.2 ++ [tx]) else p) p := by
      simp [hpk, hkeq]
    rw [this]
    exact List.mem_map_of_mem _ hp
  · rw [if_neg hmem]
    exact ⟨[tx], List.mem_append_right _ (List.mem_singleton_self _),
      List.mem_singleton_self tx⟩

lemma txsByBlockStep_contains_mono (acc : List (String × List EtherscanTx))
    (tx t : EtherscanTx) (h : containsTx acc t) : containsTx (txsByBlockStep acc tx) t := by
  obtain ⟨l, hl, htl⟩ := h
  unfold txsByBlockStep
  by_cases hmem : acc.any (fun p => p.1 == tx.blockNumber)
  · rw [if_pos hmem]
    by_cases hk : (t.blockNumber : String) == tx.blockNumber
    · refine ⟨l ++ [tx], ?_, List.mem_append_left _ htl⟩
      have : (t.blockNumber, l ++ [tx]) =
          (fun p => if p.1 == tx.blockNumber then (p.1, p.2 ++ [tx]) else p)
            (t.blockNumber, l) := by
        simp only [hk, if_true]
      rw [this]
      exact List.mem_map_of_mem _ hl
    · refine ⟨l, ?_, htl⟩
      have : ((t.blockNumber : String), l) =
          (fun p => if p.1 == tx.blockNumber then (p.1, p.2 ++ [tx]) else p)
            (t.blockNumber, l) := by
        simp only [hk]
        simp
      rw [this]
      exact List.mem_map_of_mem _ hl
  · rw [if_neg hmem]
    exact ⟨l, List.mem_append_left _ hl, htl⟩

lemma txsByBlock_foldl_aux (txs : List EtherscanTx) :
    ∀ acc, goodAcc acc →
      goodAcc (txs.foldl txsByBlockStep acc) ∧
      (∀ t, containsTx acc t → containsTx (txs.foldl txsByBlockStep acc) t) ∧
      (∀ t ∈ txs, containsTx (txs.foldl txsByBlockStep acc) t) := by
  induction txs with
  | nil => intro acc hacc; exact ⟨hacc, fun t ht => ht, fun t ht => absurd ht (List.not_mem_nil t)⟩
  | cons tx txs ih =>
      intro acc hacc
      have hstep := txsByBlockStep_good acc tx hacc
      obtain ⟨g, mono, all⟩ := ih (txsByBlockStep acc tx) hstep
      refine ⟨g, ?_, ?_⟩
      · intro t ht
        exact mono t (txsByBlockStep_contains_mono acc tx t ht)
      · intro t ht
        rcases List.mem_cons.mp ht with rfl | h1
        · exact mono t (txsByBlockStep_contains_new acc t)
        · exact all t h1

lemma txsByBlock_good (txs : List EtherscanTx) : goodAcc (txsByBlock txs) :=
  (txsByBlock_foldl_aux txs [] ⟨List.nodup_nil, by simp⟩).1

lemma txsByBlock_contains (txs : List EtherscanTx) (t : EtherscanTx) (h : t ∈ txs) :
    containsTx (txsByBlock txs) t :=
  (txsByBlock_foldl_aux txs [] ⟨List.nodup_nil, by simp⟩).2.2 t h

lemma goodAcc_unique (acc : List (String × List EtherscanTx)) (h : goodAcc acc)
    (k : String) (l1 l2 : List EtherscanTx)
    (h1 : (k, l1) ∈ acc) (h2 : (k, l2) ∈ acc) : l1 = l2 := by
  obtain ⟨hnd, -⟩ := h
  induction acc with
  | nil => exact absurd h1 (List.not_mem_nil _)
  | cons p acc ih =>
      simp only [List.map_cons, List.nodup_cons] at hnd
      rcases List.mem_cons.mp h1 with e1 | m1 <;> rcases List.mem_cons.mp h2 with e2 | m2
      · exact congrArg Prod.snd (e1.trans e2.symm)
      · exact absurd (List.mem_map.mpr ⟨(k, l2), m2, rfl⟩) (e1.symm ▸ hnd.1)
      · exact absurd (List.mem_map.mpr ⟨(k, l1), m1, rfl⟩) (e2.symm ▸ hnd.1)
      · exact ih m1 m2 hnd.2

/-- C5 (counterexample): transactions in blocks 100 and 101 fall in the
same width-50 block window (`100 / 50 = 101 / 50 = 2`) yet the cycle's
grouping puts them in different groups, so "two transactions land in
the same group whenever their block numbers fall in the same width-50
window" is false. -/
theorem C5_counterexample :
    parseBlockNumber "100" / 50 = parseBlockNumber "101" / 50 ∧
    ¬ inSameGroup [⟨"100", "0", "h1", "f", "t", "0"⟩, ⟨"101", "0", "h2", "f", "t", "0"⟩]
        ⟨"100", "0", "h1", "f", "t", "0"⟩ ⟨"101", "0", "h2", "f", "t", "0"⟩ := by
  constructor
  · decide
  · intro hsame
    obtain ⟨p, hp, h1, h2⟩ := hsame
    have hgood := txsByBlock_good
      [⟨"100", "0", "h1", "f", "t", "0"⟩, ⟨"101", "0", "h2", "f", "t", "0"⟩]
    have e1 := hgood.2 p hp _ h1
    have e2 := hgood.2 p hp _ h2
    have : ("100" : String) = "101" := e1.trans e2.symm
    simp at this

/-- C5 (amended): `runCycle` groups the fetched transactions by their
*exact* block number (the `blockNumber` string is the reduce key), not
by a width-50 block range: two fetched transactions land in the same
group if and only if their `blockNumber` fields are equal. -/
theorem C5_amended (txs : List EtherscanTx) (t1 t2 : EtherscanTx)
    (h1 : t1 ∈ txs) (h2 : t2 ∈ txs) :
    inSameGroup txs t1 t2 ↔ t1.blockNumber = t2.blockNumber := by
  constructor
  · rintro ⟨p, hp, hm1, hm2⟩
    have e1 := (txsByBlock_good txs).2 p hp t1 hm1
    have e2 := (txsByBlock_good txs).2 p hp t2 hm2
    exact e1.trans e2.symm
  · intro heq
    obtain ⟨l1, hl1, ht1⟩ := txsByBlock_contains txs t1 h1
    obtain ⟨l2, hl2, ht2⟩ := txsByBlock_contains txs t2 h2
    rw [heq] at hl1
    have : l1 = l2 := goodAcc_unique _ (txsByBlock_good txs) t2.blockNumber l1 l2 hl1 hl2
    subst this
    exact ⟨(t2.blockNumber, l1), hl2, heq ▸ ht1, ht2⟩

/-- C5 (witness): concrete instance of `C5_amended`: two transactions
with the same block-number string land in the same group. -/
theorem C5_amended_witness :
    inSameGroup [⟨"100", "0", "h1", "f", "t", "0"⟩, ⟨"100", "1", "h2", "f", "t", "0"⟩]
      ⟨"100", "0", "h1", "f", "t", "0"⟩ ⟨"100", "1", "h2", "f", "t", "0"⟩ :=
  (C5_amended _ _ _ (by simp) (by simp)).mpr rfl

/-! ## Per-address alert-message finalisation (`monitorContracts`, Step 3) -/

/-- The notice `⚠️ Found N transactions. Showing latest 5 only.` that
Step 3 of `monitorContracts` prepends (`messages.unshift(...)`). -/
def truncationNotice (n : Nat) : String :=
  s!"⚠️ Found {n} transactions. Showing latest 5 only."

/-- Step 3 of `monitorContracts` on one address's collected alert
messages: when more than 5 messages were produced, prepend the notice;
the message list itself is then handed to `bot.sendMessage` unchanged. -/
def prepareMainMessages (messages : List String) : List String :=
  if messages.length > 5 then truncationNotice messages.length :: messages
  else messages

/-- C4 (counterexample): with 6 alert messages for one address the
dispatched set has all 7 entries (notice plus all 6 originals) — the
oldest message `"m1"` is still dispatched — so the dispatched set is
*not* truncated to the most recent 5. -/
theorem C4_counterexample :
    (prepareMainMessages ["m1", "m2", "m3", "m4", "m5", "m6"]).length = 7 ∧
    "m1" ∈ prepareMainMessages ["m1", "m2", "m3", "m4", "m5", "m6"] ∧
    prepareMainMessages ["m1", "m2", "m3", "m4", "m5", "m6"] ≠
      truncationNotice 6 :: ["m2", "m3", "m4", "m5", "m6"] := by
  refine ⟨rfl, ?_, ?_⟩
  · rw [show prepareMainMessages ["m1", "m2", "m3", "m4", "m5", "m6"] =
      truncationNotice 6 :: ["m1", "m2", "m3", "m4", "m5", "m6"] from rfl]
    exact List.mem_cons_of_mem _ (by simp)
  · intro h
    have := congrArg List.length h
    rw [show (prepareMainMessages ["m1", "m2", "m3", "m4", "m5", "m6"]).length = 7
      from rfl] at this
    simp at this

/-- C4 (amended): when more than 5 alert messages are produced for one
address in one cycle, the code prepends the notice
`⚠️ Found N transactions. Showing latest 5 only.` (with `N` the number
of messages) but does *not* truncate the set: every produced message is
still dispatched; with at most 5 messages the list is passed through
unchanged.  (The "latest 5" wording refers to the per-address
*transaction* cap applied at fetch time, `transactions.slice(-limit)`.) -/
theorem C4_amended (messages : List String) :
    (5 < messages.length →
      prepareMainMessages messages = truncationNotice messages.length :: messages ∧
      ∀ m ∈ messages, m ∈ prepareMainMessages messages) ∧
    (messages.length ≤ 5 → prepareMainMessages messages = messages) := by
  constructor
  · intro h
    have h' : messages.length > 5 := h
    refine ⟨by rw [prepareMainMessages, if_pos h'], ?_⟩
    intro m hm
    rw [prepareMainMessages, if_pos h']
    exact List.mem_cons_of_mem _ hm
  · intro h
    rw [prepareMainMessages, if_neg (by omega)]

/-- C4 (witness): concrete instance of `C4_amended` in both regimes. -/
theorem C4_amended_witness :
    prepareMainMessages ["a", "b", "c", "d", "e", "f"] =
      truncationNotice 6 :: ["a", "b", "c", "d", "e", "f"] ∧
    prepareMainMessages ["a"] = ["a"] :=
  ⟨((C4_amended ["a", "b", "c", "d", "e", "f"]).1 (by simp)).1,
    (C4_amended ["a"]).2 (by simp)⟩

/-! ## One poll cycle (`TransactionMonitor.monitorContracts`)

The embedding follows the first (external-transaction) variant of
`monitor.ts`: initialise uninitialised checkpoints, fetch per address
(Step 1), process the addresses whose (capped) transaction list is
non-empty (Step 2), update their checkpoints from the processing result
(Step 3), and set the checkpoint of every address with an empty
transaction list — including addresses whose fetch threw — to the
current chain head (the final `forEach`).  Message rendering and
dispatch do not influence checkpoints (for a well-formed configuration
`bot.sendMessage` never throws), so the cycle is modelled on the
checkpoint state; the message-set finalisation is `prepareMainMessages`
above.  The external world of one cycle (chain head, per-address fetch
results, whether the per-address Step 2 body throws, and the
`LIMIT_TRANSACTIONS` cap) is an explicit oracle. -/

/-- The environment one `monitorContracts` call observes. -/
structure CycleEnv where
  latestBlock : Option Int
  fetch : String → Except Unit (List EtherscanTx)
  procFails : String → Bool
  limitTx : Nat

/-- Write one address's `contractStats[name].lastBlockChecked`. -/
def updStat (st : String → Int) (n : String) (v : Int) : String → Int :=
  fun m => if m = n then v else st m

/-- The `Initialize start blocks if needed` loop: any address whose
checkpoint is `0` is set to `currentBlock - initialBlocksToFetch`. -/
def initCheckpoints (names : List String) (ibf cb : Int) (st : String → Int) :
    String → Int :=
  names.foldl (fun st n => if st n = 0 then updStat st n (cb - ibf) else st) st

/-- Cap `transactions.slice(-limit)` (keep the newest `limit` entries;
JavaScript's `slice(-0)` keeps the whole array). -/
def limitedTxs (limit : Nat) (txs : List EtherscanTx) : List EtherscanTx :=
  if txs.length > limit then
    (if limit = 0 then txs else txs.drop (txs.length - limit))
  else txs

/-- Maximum `Math.max(...transactions.map(tx => parseInt(tx.blockNumber)))` over
a non-empty list (the `[]` case never reaches this in the source). -/
def maxBlockOf : List EtherscanTx → Int
  | [] => 0
  | [t] => parseBlockNumber t.blockNumber
  | t :: ts => max (parseBlockNumber t.blockNumber) (maxBlockOf (ts))

/-- The per-address record produced by Step 1 of `monitorContracts`:
on a fetch error the `catch` yields an empty list with `maxBlock` null;
otherwise the capped list, the total count, and the maximum block of
the *full* fetched list. -/
structure FetchOut where
  name : String
  transactions : List EtherscanTx
  totalFound : Nat
  maxBlock : Option Int

/-- Step 1 of `monitorContracts` for one address. -/
def fetchStep (env : CycleEnv) (n : String) : FetchOut :=
  match env.fetch n with
  | .error _ => ⟨n, [], 0, none⟩
  | .ok txs =>
      ⟨n, limitedTxs env.limitTx txs, txs.length,
        if txs.length > 0 then some (maxBlockOf txs) else none⟩

/-- The checkpoint value Step 2 of `monitorContracts` reports for one
address: on an error inside the processing body, the address's current
`lastBlockChecked`; otherwise `maxBlock ? maxBlock + 1 : currentBlock`
(JavaScript truthiness: a null *or zero* `maxBlock` yields
`currentBlock`). -/
structure ProcOut where
  name : String
  maxBlock : Int

/-- Step 2 of `monitorContracts` for one address (checkpoint part). -/
def processStep (st : String → Int) (cb : Int) (pf : String → Bool)
    (f : FetchOut) : ProcOut :=
  if pf f.name then ⟨f.name, st f.name⟩
  else
    ⟨f.name,
      match f.maxBlock with
      | some b => if b ≠ 0 then b + 1 else cb
      | none => cb⟩

/-- One full `monitorContracts` cycle, as the transformation of the
per-address checkpoint map (`contractStats[*].lastBlockChecked`).  A
failed or zero chain-head lookup (`if (!currentBlock) return`) leaves
every checkpoint unchanged. -/
def monitorCycle (names : List String) (ibf : Int) (env : CycleEnv)
    (st : String → Int) : String → Int :=
  match env.latestBlock with
  | none => st
  | some cb =>
      if cb = 0 then st
      else
        let st1 := initCheckpoints names ibf cb st
        let fetched := names.map (fetchStep env)
        let results := (fetched.filter
            (fun f => decide (0 < f.transactions.length))).map
          (processStep st1 cb env.procFails)
        let st2 := results.foldl (fun s r => updStat s r.name r.maxBlock) st1
        (fetched.filter (fun f => decide (f.transactions.length = 0))).foldl
          (fun s f => updStat s f.name cb) st2

/-- Pointwise characterisation of what one cycle does to one address's
checkpoint, given that address's initialised old value (proved equal to
`monitorCycle` in `monitorCycle_pointwise`). -/
def addrUpdate (env : CycleEnv) (cb old : Int) (n : String) : Int :=
  match env.fetch n with
  | .error _ => cb
  | .ok txs =>
      if (limitedTxs env.limitTx txs).length = 0 then cb
      else if env.procFails n then old
      else
        match (if txs.length > 0 then some (maxBlockOf txs) else none) with
        | some b => if b ≠ 0 then b + 1 else cb
        | none => cb

lemma fetchStep_name (env : CycleEnv) (n : String) : (fetchStep env n).name = n := by
  unfold fetchStep
  cases env.fetch n <;> rfl

lemma processStep_name (st : String → Int) (cb : Int) (pf : String → Bool)
    (f : FetchOut) : (processStep st cb pf f).name = f.name := by
  unfold processStep
  split <;> rfl

lemma foldl_updStat_not_mem {α : Type} (key : α → String) (val : α → Int)
    (l : List α) (st : String → Int) (n : String) (h : ∀ a ∈ l, key a ≠ n) :
    (l.foldl (fun s a => updStat s (key a) (val a)) st) n = st n := by
  induction l generalizing st with
  | nil => rfl
  | cons a l ih =>
      simp only [List.foldl_cons]
      rw [ih _ (fun b hb => h b (List.mem_cons_of_mem a hb))]
      unfold updStat
      rw [if_neg (fun e => h a (List.mem_cons_self a l) e.symm)]

lemma foldl_updStat_mem {α : Type} (key : α → String) (val : α → Int) :
    ∀ (l : List α) (st : String → Int) (a : α), a ∈ l → (l.map key).Nodup →
    (l.foldl (fun s b => updStat s (key b) (val b)) st) (key a) = val a := by
  intro l
  induction l with
  | nil => intro st a ha; cases ha
  | cons b l ih =>
      intro st a ha hnd
      simp only [List.map_cons, List.nodup_cons] at hnd
      rcases List.mem_cons.mp ha with rfl | hmem
      · simp only [List.foldl_cons]
        rw [foldl_updStat_not_mem key val l _ (key a)
          (fun c hc e => hnd.1 (e ▸ List.mem_map_of_mem key hc))]
        unfold updStat
        rw [if_pos rfl]
      · simp only [List.foldl_cons]
        exact ih _ a hmem hnd.2

lemma initCheckpoints_not_mem : ∀ (names : List String) (ibf cb : Int)
    (st : String → Int) (n : String), n ∉ names →
    initCheckpoints names ibf cb st n = st n := by
  intro names
  induction names with
  | nil => intro ibf cb st n _; rfl
  | cons m ms ih =>
      intro ibf cb st n h
      have hnm : n ≠ m := fun e => h (e ▸ List.mem_cons_self m ms)
      rw [show initCheckpoints (m :: ms) ibf cb st =
        initCheckpoints ms ibf cb (if st m = 0 then updStat st m (cb - ibf) else st)
        from rfl]
      rw [ih ibf cb _ n (fun hh => h (List.mem_cons_of_mem m hh))]
      by_cases h0 : st m = 0
      · rw [if_pos h0]; unfold updStat; rw [if_neg hnm]
      · rw [if_neg h0]

lemma initCheckpoints_mem : ∀ (names : List String), names.Nodup →
    ∀ n ∈ names, ∀ (ibf cb : Int) (st : String → Int),
    initCheckpoints names ibf cb st n = if st n = 0 then cb - ibf else st n := by
  intro names
  induction names with
  | nil => intro _ n hn; cases hn
  | cons m ms ih =>
      intro hnd n hn ibf cb st
      rw [show initCheckpoints (m :: ms) ibf cb st =
        initCheckpoints ms ibf cb (if st m = 0 then updStat st m (cb - ibf) else st)
        from rfl]
      rcases List.mem_cons.mp hn with rfl | hmem
      · rw [initCheckpoints_not_mem ms ibf cb _ n (List.nodup_cons.mp hnd).1]
        by_cases h0 : st n = 0
        · rw [if_pos h0, if_pos h0]; unfold updStat; rw [if_pos rfl]
        · rw [if_neg h0, if_neg h0]
      · have hnm : n ≠ m := by
          rintro rfl
          exact (List.nodup_cons.mp hnd).1 hmem
        have hval : (if st m = 0 then updStat st m (cb - ibf) else st) n = st n := by
          by_cases h0 : st m = 0
          · rw [if_pos h0]; unfold updStat; rw [if_neg hnm]
          · rw [if_neg h0]
        rw [ih (List.nodup_cons.mp hnd).2 n hmem ibf cb _, hval]

lemma monitorCycle_pointwise (names : List String) (ibf : Int) (env : CycleEnv)
    (st : String → Int) (hnd : names.Nodup) (n : String) (hn : n ∈ names)
    (cb : Int) (hlb : env.latestBlock = some cb) (hcb : cb ≠ 0) :
    monitorCycle names ibf env st n =
      addrUpdate env cb (initCheckpoints names ibf cb st n) n := by
  unfold monitorCycle
  rw [hlb]
  dsimp only
  rw [if_neg hcb]
  have hfetchedNames : (names.map (fetchStep env)).map FetchOut.name = names := by
    rw [List.map_map]
    conv_rhs => rw [← List.map_id names]
    exact List.map_congr_left (fun m _ => fetchStep_name env m)
  have hfetchedNodup : ((names.map (fetchStep env)).map FetchOut.name).Nodup := by
    rw [hfetchedNames]; exact hnd
  have hfn : fetchStep env n ∈ names.map (fetchStep env) :=
    List.mem_map_of_mem (fetchStep env) hn
  have hinj := List.inj_on_of_nodup_map hfetchedNodup
  -- names of the two filtered sublists are still distinct
  have hnodupNE : (((names.map (fetchStep env)).filter
      (fun f => decide (0 < f.transactions.length))).map FetchOut.name).Nodup :=
    ((List.filter_sublist _).map FetchOut.name).nodup hfetchedNodup
  have hnodupE : (((names.map (fetchStep env)).filter
      (fun f => decide (f.transactions.length = 0))).map FetchOut.name).Nodup :=
    ((List.filter_sublist _).map FetchOut.name).nodup hfetchedNodup
  by_cases hempty : (fetchStep env n).transactions = []
  · -- the address's (capped) transaction list is empty: the final
    -- forEach sets its checkpoint to the chain head
    have hmemE : fetchStep env n ∈ (names.map (fetchStep env)).filter
        (fun f => decide (f.transactions.length = 0)) := by
      rw [List.mem_filter]
      exact ⟨hfn, by rw [hempty]; rfl⟩
    have hfinal := foldl_updStat_mem FetchOut.name (fun _ => cb) _
      (((names.map (fetchStep env)).filter
        (fun f => decide (0 < f.transactions.length))).map
        (processStep (initCheckpoints names ibf cb st) cb env.procFails) |>.foldl
        (fun s r => updStat s r.name r.maxBlock) (initCheckpoints names ibf cb st))
      (fetchStep env n) hmemE hnodupE
    rw [fetchStep_name] at hfinal
    rw [hfinal]
    -- and the right-hand side is the chain head as well
    unfold addrUpdate
    cases hf : env.fetch n with
    | error e => rfl
    | ok txs =>
        have htx0 : (fetchStep env n).transactions = limitedTxs env.limitTx txs := by
          unfold fetchStep; rw [hf]
        rw [htx0] at hempty
        have hlen : (limitedTxs env.limitTx txs).length = 0 := by rw [hempty]; rfl
        simp [hlen]
  · -- the address produced transactions: Step 3 wrote the processing
    -- result's checkpoint, and the final forEach does not touch it
    have hne : ∀ f ∈ (names.map (fetchStep env)).filter
        (fun f => decide (f.transactions.length = 0)), f.name ≠ n := by
      intro f hf he
      have hfmem := (List.mem_filter.mp hf).1
      have hflen := (List.mem_filter.mp hf).2
      have : f = fetchStep env n := hinj hfmem hfn (by rw [he, fetchStep_name])
      rw [this] at hflen
      exact hempty (List.length_eq_zero.mp (by simpa using hflen))
    rw [foldl_updStat_not_mem FetchOut.name (fun _ => cb) _ _ n hne]
    have hmemNE : fetchStep env n ∈ (names.map (fetchStep env)).filter
        (fun f => decide (0 < f.transactions.length)) := by
      rw [List.mem_filter]
      refine ⟨hfn, ?_⟩
      simp only [decide_eq_true_eq]
      exact List.length_pos.mpr hempty
    have hmemR : processStep (initCheckpoints names ibf cb st) cb env.procFails
        (fetchStep env n) ∈ ((names.map (fetchStep env)).filter
        (fun f => decide (0 < f.transactions.length))).map
        (processStep (initCheckpoints names ibf cb st) cb env.procFails) :=
      List.mem_map_of_mem _ hmemNE
    have hnodupR : ((((names.map (fetchStep env)).filter
        (fun f => decide (0 < f.transactions.length))).map
        (processStep (initCheckpoints names ibf cb st) cb env.procFails)).map
        ProcOut.name).Nodup := by
      rw [List.map_map]
      have : (ProcOut.name ∘ processStep (initCheckpoints names ibf cb st) cb
          env.procFails) = FetchOut.name := by
        funext f
        exact processStep_name _ _ _ f
      rw [this]
      exact hnodupNE
    have hstep3 := foldl_updStat_mem ProcOut.name ProcOut.maxBlock _
      (initCheckpoints names ibf cb st) _ hmemR hnodupR
    rw [processStep_name, fetchStep_name] at hstep3
    rw [hstep3]
    -- identify the processing result with `addrUpdate`
    cases hf : env.fetch n with
    | error e =>
        exfalso
        apply hempty
        unfold fetchStep
        rw [hf]
    | ok txs =>
        have htx : (fetchStep env n).transactions = limitedTxs env.limitTx txs := by
          unfold fetchStep; rw [hf]
        have hmb : (fetchStep env n).maxBlock =
            (if txs.length > 0 then some (maxBlockOf txs) else none) := by
          unfold fetchStep; rw [hf]
        have hname : (fetchStep env n).name = n := fetchStep_name env n
        have hlim : ¬ (limitedTxs env.limitTx txs).length = 0 := by
          rw [← htx]
          exact fun h0 => hempty (List.length_eq_zero.mp h0)
        have hrhs : addrUpdate env cb (initCheckpoints names ibf cb st n) n =
            if (limitedTxs env.limitTx txs).length = 0 then cb
            else if env.procFails n = true then initCheckpoints names ibf cb st n
            else
              match (if txs.length > 0 then some (maxBlockOf txs) else none) with
              | some b => if b ≠ 0 then b + 1 else cb
              | none => cb := by
          unfold addrUpdate
          rw [hf]
        have hlhs : (processStep (initCheckpoints names ibf cb st) cb env.procFails
            (fetchStep env n)).maxBlock =
            if env.procFails n = true then initCheckpoints names ibf cb st n
            else
              match (if txs.length > 0 then some (maxBlockOf txs) else none) with
              | some b => if b ≠ 0 then b + 1 else cb
              | none => cb := by
          unfold processStep
          rw [hname, hmb]
          by_cases hpf : env.procFails n = true
          · rw [if_pos hpf, if_pos hpf]
          · rw [if_neg hpf, if_neg hpf]
        rw [hlhs, hrhs, if_neg hlim]

/-- The cycle environment for C1's counterexample: chain head `200`,
every fetch throwing, processing healthy. -/
def envC1 : CycleEnv := ⟨some 200, fun _ => .error (), fun _ => false, 5⟩

/-- C1 (counterexample): with checkpoint `100`, a failed transaction
fetch for address `"A"` does *not* leave the checkpoint unchanged: the
`catch` returns an empty transaction list, the address falls into the
"no transactions" branch, and its checkpoint is advanced to the current
chain head `200`. -/
theorem C1_counterexample :
    monitorCycle ["A"] 7200 envC1 (fun _ => 100) "A" = 200 ∧
    ¬ monitorCycle ["A"] 7200 envC1 (fun _ => 100) "A" = 100 := by
  constructor <;> decide

/-- C1 (amended): errors are isolated per address: an error in one
address's fetch or processing never aborts the cycle or influences
another address's checkpoint (third conjunct), and an error inside the
per-address *processing* body leaves that address's checkpoint at its
(initialised) prior value (second conjunct); but a failed transaction
*fetch* is converted into an empty transaction list, so the address's
checkpoint is advanced to the current chain head rather than held
(first conjunct). -/
theorem C1_amended (names : List String) (ibf : Int) (env : CycleEnv)
    (st : String → Int) (n : String) (cb : Int)
    (hnd : names.Nodup) (hn : n ∈ names)
    (hlb : env.latestBlock = some cb) (hcb : cb ≠ 0) :
    (env.fetch n = .error () → monitorCycle names ibf env st n = cb) ∧
    (∀ txs, env.fetch n = .ok txs → limitedTxs env.limitTx txs ≠ [] →
      env.procFails n = true →
      monitorCycle names ibf env st n = (if st n = 0 then cb - ibf else st n)) ∧
    (∀ env' : CycleEnv, env'.latestBlock = env.latestBlock →
      env'.limitTx = env.limitTx → env'.fetch n = env.fetch n →
      env'.procFails n = env.procFails n →
      monitorCycle names ibf env' st n = monitorCycle names ibf env st n) := by
  refine ⟨?_, ?_, ?_⟩
  · intro hf
    rw [monitorCycle_pointwise names ibf env st hnd n hn cb hlb hcb]
    unfold addrUpdate
    rw [hf]
  · intro txs hf hne hpf
    rw [monitorCycle_pointwise names ibf env st hnd n hn cb hlb hcb,
      initCheckpoints_mem names hnd n hn ibf cb st]
    unfold addrUpdate
    rw [hf]
    dsimp only
    rw [if_neg (fun h0 => hne (List.length_eq_zero.mp h0)), if_pos hpf]
  · intro env' h1 h2 h3 h4
    rw [monitorCycle_pointwise names ibf env st hnd n hn cb hlb hcb,
      monitorCycle_pointwise names ibf env' st hnd n hn cb (h1.trans hlb) hcb]
    unfold addrUpdate
    rw [h3, h2, h4]

/-- C1 (witness): concrete instance of the fetch-error conjunct of
`C1_amended` on `envC1`. -/
theorem C1_amended_witness :
    monitorCycle ["A"] 7200 envC1 (fun _ => 100) "A" = 200 :=
  (C1_amended ["A"] 7200 envC1 (fun _ => 100) "A" 200 (by simp) (by simp) rfl
    (by decide)).1 rfl

/-- A transaction at block 10, used by C2's cycles. -/
def txB10 : EtherscanTx := ⟨"10", "0", "h", "f", "t", "0"⟩

/-- C2 counterexample, first cycle: chain head 10, one new transaction
at block 10. -/
def envC2a : CycleEnv := ⟨some 10, fun _ => .ok [txB10], fun _ => false, 5⟩

/-- C2 counterexample, second cycle: chain head still 10 (non-
decreasing), no transaction at or above the checkpoint. -/
def envC2b : CycleEnv := ⟨some 10, fun _ => .ok [], fun _ => false, 5⟩

/-- C2 (counterexample): with the external chain head non-decreasing
(10 then 10), the checkpoint of `"A"` moves from 5 to `10 + 1 = 11`
(transaction at the head block), and the next cycle — zero transactions
since `fromBlock = 11` exceeds the head — *regresses* it to the chain
head `10 < 11`, so `lastBlockChecked` is not monotonically
non-decreasing in every branch. -/
theorem C2_counterexample :
    monitorCycle ["A"] 7200 envC2a (fun _ => 5) "A" = 11 ∧
    monitorCycle ["A"] 7200 envC2b
      (monitorCycle ["A"] 7200 envC2a (fun _ => 5)) "A" = 10 ∧
    ((10 : Int) < 11) := by
  refine ⟨by decide, by decide, by decide⟩

lemma le_maxBlockOf : ∀ (txs : List EtherscanTx), ∀ t ∈ txs,
    parseBlockNumber t.blockNumber ≤ maxBlockOf txs := by
  intro txs
  induction txs with
  | nil => intro t ht; cases ht
  | cons a l ih =>
      intro t ht
      cases l with
      | nil =>
          rw [List.mem_singleton] at ht
          subst ht
          exact le_refl _
      | cons b l' =>
          rcases List.mem_cons.mp ht with rfl | hmem
          · exact le_max_left _ _
          · calc parseBlockNumber t.blockNumber ≤ maxBlockOf (b :: l') := ih t hmem
              _ ≤ max (parseBlockNumber a.blockNumber) (maxBlockOf (b :: l')) :=
                le_max_right _ _

/-- C2 (amended): the checkpoint is non-decreasing over a cycle
provided the address is already initialised (`0 < st n`), its
checkpoint does not exceed the cycle's chain head (`st n ≤ cb` — the
condition the counterexample violates), and the fetcher only returns
transactions at or above the checkpoint; this holds in every branch
(transactions found, zero transactions, fetch error, processing
error). -/
theorem C2_amended (names : List String) (ibf : Int) (env : CycleEnv)
    (st : String → Int) (n : String) (cb : Int)
    (hnd : names.Nodup) (hn : n ∈ names)
    (hlb : env.latestBlock = some cb) (hcb : cb ≠ 0)
    (hpos : 0 < st n) (hle : st n ≤ cb)
    (htx : ∀ txs, env.fetch n = .ok txs →
      ∀ t ∈ txs, st n ≤ parseBlockNumber t.blockNumber) :
    st n ≤ monitorCycle names ibf env st n := by
  rw [monitorCycle_pointwise names ibf env st hnd n hn cb hlb hcb,
    initCheckpoints_mem names hnd n hn ibf cb st]
  rw [if_neg (by omega : ¬ st n = 0)]
  unfold addrUpdate
  cases hf : env.fetch n with
  | error e => exact hle
  | ok txs =>
      dsimp only
      by_cases hlim : (limitedTxs env.limitTx txs).length = 0
      · rw [if_pos hlim]; exact hle
      · rw [if_neg hlim]
        by_cases hpf : env.procFails n = true
        · rw [if_pos hpf]
        · rw [if_neg hpf]
          have htxne : txs ≠ [] := by
            intro h0
            subst h0
            apply hlim
            unfold limitedTxs
            simp
          have hlen : txs.length > 0 := List.length_pos.mpr htxne
          rw [if_pos hlen]
          dsimp only
          have hmax : st n ≤ maxBlockOf txs := by
            obtain ⟨t, ts, rfl⟩ : ∃ t ts, txs = t :: ts := by
              cases txs with
              | nil => exact absurd rfl htxne
              | cons t ts => exact ⟨t, ts, rfl⟩
            calc st n ≤ parseBlockNumber t.blockNumber :=
                  htx _ hf t (List.mem_cons_self t ts)
              _ ≤ maxBlockOf (t :: ts) := le_maxBlockOf _ t (List.mem_cons_self t ts)
          have hne0 : maxBlockOf txs ≠ 0 := by omega
          rw [if_pos hne0]
          omega

/-- C2 (witness): concrete instance of `C2_amended` on `envC2a`. -/
theorem C2_amended_witness :
    (5 : Int) ≤ monitorCycle ["A"] 7200 envC2a (fun _ => 5) "A" :=
  C2_amended ["A"] 7200 envC2a (fun _ => 5) "A" 10 (by simp) (by simp) rfl
    (by decide) (by decide) (by decide)
    (by intro txs hf t ht
        have h' : (Except.ok [txB10] : Except Unit (List EtherscanTx)) =
            Except.ok txs := hf
        injection h' with h''
        subst h''
        rw [List.mem_singleton] at ht
        subst ht
        decide)

/-! ## Reputation-filter throttling (internal-transfer variant of
`monitorContracts` plus `checkOldTransactions`)

The eligible groups of one cycle, in processing order across all
addresses, are modelled by the number of external `getAssetTransfers`
calls each issues (`checkOldTransactions` makes one call per sampled
wallet, and at most 2 wallets are sampled).  `noOfCalls` is the
monitor's shared counter: the source checks `if (noOfCalls >= 10)`,
sleeps 1100 ms and resets, then increments the counter *once per
group*. -/

/-- The `sleep(1100)` pause of the internal-transfer variant. -/
def RATE_LIMIT_PAUSE_MS : Nat := 1100

/-- The throttling state threaded through one cycle's eligible groups:
the source's `noOfCalls` counter, plus (for specification purposes) the
external calls and groups since the last pause and in each completed
inter-pause segment. -/
structure ThrottleState where
  noOfCalls : Nat
  curCalls : Nat
  curGroups : Nat
  segCalls : List Nat
  segGroups : List Nat
  deriving Repr, DecidableEq

/-- Processing one eligible group that issues `w` external calls:
`if (noOfCalls >= 10) { sleep(1100); noOfCalls = 0 } noOfCalls++`,
followed by the group's `checkOldTransactions` calls. -/
def throttleStep (s : ThrottleState) (w : Nat) : ThrottleState :=
  let t := if s.noOfCalls ≥ 10 then
      ⟨0, 0, 0, s.segCalls ++ [s.curCalls], s.segGroups ++ [s.curGroups]⟩
    else s
  ⟨t.noOfCalls + 1, t.curCalls + w, t.curGroups + 1, t.segCalls, t.segGroups⟩

/-- The throttle trace of one cycle over its eligible groups. -/
def throttleRun (ws : List Nat) : ThrottleState :=
  ws.foldl throttleStep ⟨0, 0, 0, [], []⟩

/-- C6 (counterexample): eleven eligible groups, each issuing 2
external transfer-history calls, produce 20 external calls between the
cycle start and the first forced pause — the completed inter-pause
segment records 20 > 10 calls — so the shared counter does *not* bound
the external calls between consecutive pauses by 10. -/
theorem C6_counterexample :
    (throttleRun (List.replicate 11 2)).segCalls = [20] ∧ ¬ (20 : Nat) ≤ 10 := by
  constructor <;> decide

/-- Invariant of the throttle state: the counter counts the groups of
the current segment, at most 10 groups and at most 2 calls per group
accumulate before a pause, every completed segment holds exactly 10
groups, and hence at most 20 calls. -/
def throttleInv (s : ThrottleState) : Prop :=
  s.noOfCalls = s.curGroups ∧ s.curGroups ≤ 10 ∧ s.curCalls ≤ 2 * s.curGroups ∧
  (∀ g ∈ s.segGroups, g = 10) ∧ (∀ c ∈ s.segCalls, c ≤ 20)

lemma throttleStep_inv (s : ThrottleState) (w : Nat) (hw : w ≤ 2)
    (h : throttleInv s) : throttleInv (throttleStep s w) := by
  obtain ⟨h1, h2, h3, h4, h5⟩ := h
  unfold throttleStep
  by_cases h10 : s.noOfCalls ≥ 10
  · rw [if_pos h10]
    dsimp only [throttleInv]
    refine ⟨rfl, by omega, by omega, ?_, ?_⟩
    · intro g hg
      rcases List.mem_append.mp hg with hg | hg
      · exact h4 g hg
      · rw [List.mem_singleton.mp hg]
        omega
    · intro c hc
      rcases List.mem_append.mp hc with hc | hc
      · exact h5 c hc
      · rw [List.mem_singleton.mp hc]
        omega
  · rw [if_neg h10]
    dsimp only [throttleInv]
    exact ⟨by omega, by omega, by omega, h4, h5⟩

lemma throttle_foldl_inv : ∀ (ws : List Nat), (∀ w ∈ ws, w ≤ 2) →
    ∀ s, throttleInv s → throttleInv (ws.foldl throttleStep s) := by
  intro ws
  induction ws with
  | nil => intro _ s hs; exact hs
  | cons w ws ih =>
      intro hw s hs
      exact ih (fun x hx => hw x (List.mem_cons_of_mem w hx)) _
        (throttleStep_inv s w (hw w (List.mem_cons_self w ws)) hs)

/-- C6 (amended): the shared `noOfCalls` counter counts *eligible
groups*, not external calls: between consecutive forced pauses exactly
10 eligible groups are processed, so — at up to 2 external
transfer-history calls per group — at most **20** external calls (not
10) are issued between consecutive pauses of `1100 ≥ 1000` ms, across
all addresses of the cycle. -/
theorem C6_amended (ws : List Nat) (hw : ∀ w ∈ ws, w ≤ 2) :
    (∀ g ∈ (throttleRun ws).segGroups, g = 10) ∧
    (∀ c ∈ (throttleRun ws).segCalls, c ≤ 20) ∧
    (throttleRun ws).curCalls ≤ 20 ∧
    (throttleRun ws).curGroups ≤ 10 ∧
    1000 ≤ RATE_LIMIT_PAUSE_MS := by
  unfold throttleRun
  have hinit : throttleInv ⟨0, 0, 0, [], []⟩ := by
    unfold throttleInv
    refine ⟨rfl, by decide, by decide, ?_, ?_⟩ <;> intro x hx <;> cases hx
  obtain ⟨h1, h2, h3, h4, h5⟩ := throttle_foldl_inv ws hw ⟨0, 0, 0, [], []⟩ hinit
  exact ⟨h4, h5, by omega, h2, by decide⟩

/-- C6 (witness): concrete instance of `C6_amended` on eleven
2-call groups. -/
theorem C6_amended_witness :
    (∀ g ∈ (throttleRun (List.replicate 11 2)).segGroups, g = 10) ∧
    (∀ c ∈ (throttleRun (List.replicate 11 2)).segCalls, c ≤ 20) ∧
    (throttleRun (List.replicate 11 2)).curCalls ≤ 20 ∧
    (throttleRun (List.replicate 11 2)).curGroups ≤ 10 ∧
    1000 ≤ RATE_LIMIT_PAUSE_MS :=
  C6_amended (List.replicate 11 2) (by decide)

/-! ## Message splitting (`TransactionMonitor.splitMessage`)

`splitMessage` works on the rendered message text; strings are modelled
at the character level (`List Char`). -/

/-- The structural boundary `"\n\n*Transaction: *\n"` between the
header block and the itemised transaction lines of a rendered message
(the split separator of `splitMessage` and the joint of
`createMessage`). -/
def txSeparator : List Char := "\n\n*Transaction: *\n".data

/-- The message-size budget (`maxLength = 4096` in `splitMessage`). -/
def MAX_MSG_LEN : Nat := 4096

/-- Index of the leftmost occurrence of `sep` in a string (the search
underlying JavaScript `String.prototype.split`). -/
def findOcc (sep : List Char) : List Char → Option Nat
  | [] => if sep.isEmpty then some 0 else none
  | c :: rest =>
      if sep.isPrefixOf (c :: rest) then some 0
      else (findOcc sep rest).map (· + 1)

lemma findOcc_found (sep : List Char) :
    ∀ (s : List Char) (i : Nat), findOcc sep s = some i → sep <+: s.drop i := by
  intro s
  induction s with
  | nil =>
      intro i h
      unfold findOcc at h
      by_cases he : sep.isEmpty
      · rw [if_pos he] at h
        cases h
        rw [List.isEmpty_iff.mp he]
        exact ⟨[], rfl⟩
      · rw [if_neg he] at h
        cases h
  | cons c rest ih =>
      intro i h
      unfold findOcc at h
      by_cases hp : sep.isPrefixOf (c :: rest)
      · rw [if_pos hp] at h
        cases h
        exact Iff.mp List.isPrefixOf_iff_prefix hp
      · rw [if_neg hp] at h
        cases hj : findOcc sep rest with
        | none => rw [hj] at h; cases h
        | some j =>
            rw [hj] at h
            have hji : j + 1 = i := by simpa using h
            subst hji
            exact ih j hj

lemma findOcc_complete (sep : List Char) :
    ∀ (s : List Char) (i : Nat), sep <+: s.drop i →
      ∃ j, j ≤ i ∧ findOcc sep s = some j := by
  intro s
  induction s with
  | nil =>
      intro i h
      rw [List.drop_nil] at h
      have : sep = [] := Iff.mp List.prefix_nil h
      refine ⟨0, Nat.zero_le i, ?_⟩
      unfold findOcc
      rw [if_pos (by rw [this]; rfl)]
  | cons c rest ih =>
      intro i h
      by_cases hp : sep.isPrefixOf (c :: rest)
      · refine ⟨0, Nat.zero_le i, ?_⟩
        unfold findOcc
        rw [if_pos hp]
      · cases i with
        | zero =>
            rw [List.drop_zero] at h
            exact absurd (Iff.mpr List.isPrefixOf_iff_prefix h) hp
        | succ i' =>
            rw [List.drop_succ_cons] at h
            obtain ⟨j, hj, hfj⟩ := ih i' h
            refine ⟨j + 1, Nat.succ_le_succ hj, ?_⟩
            unfold findOcc
            rw [if_neg hp, hfj]
            rfl

lemma findOcc_eq_of_unique (sep : List Char) (s : List Char) (i : Nat)
    (hp : sep <+: s.drop i) (huniq : ∀ p, sep <+: s.drop p → p = i) :
    findOcc sep s = some i := by
  obtain ⟨j, _, hfj⟩ := findOcc_complete sep s i hp
  have := huniq j (findOcc_found sep s j hfj)
  rw [← this]
  exact hfj

lemma findOcc_none_of_absent (sep : List Char) (s : List Char)
    (h : ∀ p, ¬ sep <+: s.drop p) : findOcc sep s = none := by
  cases hf : findOcc sep s with
  | none => rfl
  | some j => exact absurd (findOcc_found sep s j hf) (h j)

lemma txSeparator_length : txSeparator.length = 18 := rfl

/-- Split `msg.split("\n\n*Transaction: *\n")` (JavaScript `String.split`
with a string separator: cut at every leftmost occurrence). -/
def splitOnSep (s : List Char) : List (List Char) :=
  match h : findOcc txSeparator s with
  | none => [s]
  | some i =>
      have hp := findOcc_found txSeparator s i h
      have hlt : s.length - (i + 18) < s.length := by
        have h18 : txSeparator.length ≤ (s.drop i).length := hp.length_le
        rw [txSeparator_length] at h18
        rw [List.length_drop] at h18
        omega
      s.take i :: splitOnSep (s.drop (i + txSeparator.length))
termination_by s.length
decreasing_by
  rw [List.length_drop, txSeparator_length]
  exact hlt

lemma splitOnSep_of_none (s : List Char) (h : findOcc txSeparator s = none) :
    splitOnSep s = [s] := by
  conv_lhs => unfold splitOnSep
  split
  · rfl
  · rename_i i hsome
    rw [h] at hsome
    cases hsome

lemma splitOnSep_of_some (s : List Char) (i : Nat)
    (h : findOcc txSeparator s = some i) :
    splitOnSep s = s.take i :: splitOnSep (s.drop (i + txSeparator.length)) := by
  conv_lhs => unfold splitOnSep
  split
  · rename_i hnone
    rw [h] at hnone
    cases hnone
  · rename_i j hsome
    rw [h] at hsome
    injection hsome with hj
    subst hj
    rfl

/-- A separator prefix of a prefix of `s'` at position `p` is a
separator prefix of `s'` at `p`. -/
lemma sep_prefix_mono {s s' : List Char} (hss : s <+: s') (p : Nat)
    (h : txSeparator <+: s.drop p) : txSeparator <+: s'.drop p := by
  obtain ⟨r, rfl⟩ := hss
  by_cases hp : p ≤ s.length
  · rw [List.drop_append_of_le_length hp]
    exact h.trans (List.prefix_append _ r)
  · exfalso
    have h1 : s.drop p = [] := List.drop_eq_nil_of_le (by omega)
    rw [h1] at h
    have : txSeparator = [] := Iff.mp List.prefix_nil h
    cases this

/-- If the separator occurs in `a ++ sep ++ b` only at the junction
`|a|`, the JavaScript split yields exactly `[a, b]`. -/
lemma splitOnSep_eq_pair (a b : List Char)
    (hocc : ∀ p, txSeparator <+: (a ++ txSeparator ++ b).drop p →
      p = a.length) :
    splitOnSep (a ++ txSeparator ++ b) = [a, b] := by
  have hdropA : (a ++ txSeparator ++ b).drop a.length = txSeparator ++ b := by
    rw [List.append_assoc, List.drop_left]
  have hpA : txSeparator <+: (a ++ txSeparator ++ b).drop a.length := by
    rw [hdropA]
    exact List.prefix_append _ _
  have hfind : findOcc txSeparator (a ++ txSeparator ++ b) = some a.length :=
    findOcc_eq_of_unique _ _ _ hpA hocc
  rw [splitOnSep_of_some _ _ hfind]
  have htake : (a ++ txSeparator ++ b).take a.length = a := by
    rw [List.append_assoc, List.take_left]
  have hdrop : (a ++ txSeparator ++ b).drop (a.length + txSeparator.length) = b := by
    rw [← List.length_append]
    exact List.drop_left _ _
  rw [htake, hdrop]
  have hnone : findOcc txSeparator b = none := by
    apply findOcc_none_of_absent
    intro p hp
    have hmem : txSeparator <+: (a ++ txSeparator ++ b).drop
        (a.length + txSeparator.length + p) := by
      rw [← List.length_append, List.drop_append]
      exact hp
    have := hocc _ hmem
    rw [txSeparator_length] at this
    omega
  rw [splitOnSep_of_none _ hnone]

/-- JavaScript `String.prototype.split` with a single-character
separator (`txLines[0].split("\n")` in `splitMessage`). -/
def splitOnChar (c : Char) : List Char → List (List Char)
  | [] => [[]]
  | a :: rest =>
      if a = c then [] :: splitOnChar c rest
      else
        match splitOnChar c rest with
        | [] => [[a]]
        | l :: ls => (a :: l) :: ls

/-- JavaScript `Array.prototype.join("\n")` (the itemised-lines joint of
`createMessage`). -/
def interNl : List (List Char) → List Char
  | [] => []
  | [l] => l
  | l :: ls => l ++ '\n' :: interNl ls

/-- The running text accumulated by `splitMessage`'s loop: each
processed line followed by `"\n"` (`currentMsg += tx + "\n"`). -/
def nlJoin : List (List Char) → List Char
  | [] => []
  | l :: ls => l ++ '\n' :: nlJoin ls

/-- A genuine itemised transaction line of a rendered message:
non-empty, single-line, and not starting or ending in whitespace (the
rendered lines are `• \`…\` → [View Wallet](…)`). -/
def goodLine (l : List Char) : Prop :=
  l ≠ [] ∧ (∀ ch ∈ l, ch ≠ '\n') ∧
  (∀ ch, l.head? = some ch → isWsChar ch = false) ∧
  (∀ ch, l.getLast? = some ch → isWsChar ch = false)

lemma splitOnChar_of_no_sep (c : Char) :
    ∀ (l : List Char), (∀ ch ∈ l, ch ≠ c) → splitOnChar c l = [l] := by
  intro l
  induction l with
  | nil => intro _; rfl
  | cons a rest ih =>
      intro h
      conv_lhs => unfold splitOnChar
      rw [if_neg (h a (List.mem_cons_self a rest))]
      rw [ih (fun ch hch => h ch (List.mem_cons_of_mem a hch))]

lemma splitOnChar_append (c : Char) :
    ∀ (l rest : List Char), (∀ ch ∈ l, ch ≠ c) →
      splitOnChar c (l ++ c :: rest) = l :: splitOnChar c rest := by
  intro l
  induction l with
  | nil =>
      intro rest _
      show splitOnChar c (c :: rest) = [] :: splitOnChar c rest
      conv_lhs => unfold splitOnChar
      rw [if_pos rfl]
  | cons a l ih =>
      intro rest h
      show splitOnChar c (a :: (l ++ c :: rest)) = (a :: l) :: splitOnChar c rest
      conv_lhs => unfold splitOnChar
      rw [if_neg (h a (List.mem_cons_self a l))]
      rw [ih rest (fun ch hch => h ch (List.mem_cons_of_mem a hch))]

lemma interNl_cons (l : List Char) (ls : List (List Char)) (h : ls ≠ []) :
    interNl (l :: ls) = l ++ '\n' :: interNl ls := by
  cases ls with
  | nil => exact absurd rfl h
  | cons m ms => rfl

lemma splitOnChar_interNl :
    ∀ (ls : List (List Char)), ls ≠ [] → (∀ l ∈ ls, ∀ ch ∈ l, ch ≠ '\n') →
      splitOnChar '\n' (interNl ls) = ls := by
  intro ls
  induction ls with
  | nil => intro h; exact absurd rfl h
  | cons l ls ih =>
      intro _ h
      cases ls with
      | nil =>
          show splitOnChar '\n' (interNl [l]) = [l]
          exact splitOnChar_of_no_sep '\n' l (h l (List.mem_cons_self l []))
      | cons m ms =>
          rw [interNl_cons l (m :: ms) (List.cons_ne_nil m ms)]
          rw [splitOnChar_append '\n' l (interNl (m :: ms))
            (h l (List.mem_cons_self l _))]
          rw [ih (List.cons_ne_nil m ms)
            (fun x hx ch hch => h x (List.mem_cons_of_mem l hx) ch hch)]

lemma nlJoin_eq_interNl :
    ∀ (ls : List (List Char)), ls ≠ [] → nlJoin ls = interNl ls ++ ['\n'] := by
  intro ls
  induction ls with
  | nil => intro h; exact absurd rfl h
  | cons l ls ih =>
      intro _
      cases ls with
      | nil => rfl
      | cons m ms =>
          show l ++ '\n' :: nlJoin (m :: ms) = interNl (l :: m :: ms) ++ ['\n']
          rw [ih (List.cons_ne_nil m ms),
            interNl_cons l (m :: ms) (List.cons_ne_nil m ms)]
          simp [List.append_assoc]

lemma nlJoin_append_single (ls : List (List Char)) (t : List Char) :
    nlJoin (ls ++ [t]) = nlJoin ls ++ (t ++ ['\n']) := by
  induction ls with
  | nil => rfl
  | cons l ls ih =>
      show l ++ '\n' :: nlJoin (ls ++ [t]) = (l ++ '\n' :: nlJoin ls) ++ (t ++ ['\n'])
      rw [ih]
      simp [List.append_assoc]

lemma head?_append_left (l m : List Char) (h : l ≠ []) :
    (l ++ m).head? = l.head? := by
  cases l with
  | nil => exact absurd rfl h
  | cons a t => rfl

lemma getLast?_append_right (l m : List Char) (h : m ≠ []) :
    (l ++ m).getLast? = m.getLast? := by
  rw [List.getLast?_append]
  cases hm : m.getLast? with
  | none =>
      exfalso
      cases m with
      | nil => exact h rfl
      | cons a t =>
          rw [List.getLast?_eq_getLast _ (List.cons_ne_nil a t)] at hm
          cases hm
  | some a => rfl

lemma interNl_ne_nil (ls : List (List Char)) (hne : ls ≠ [])
    (hl : ∀ l ∈ ls, l ≠ []) : interNl ls ≠ [] := by
  cases ls with
  | nil => exact absurd rfl hne
  | cons l ms =>
      cases ms with
      | nil => exact hl l (List.mem_cons_self l [])
      | cons m ms' =>
          rw [interNl_cons l (m :: ms') (List.cons_ne_nil m ms')]
          intro hcontra
          rw [List.append_eq_nil] at hcontra
          cases hcontra.2

lemma interNl_head? (ls : List (List Char)) (hne : ls ≠ [])
    (hl : ∀ l ∈ ls, l ≠ []) :
    (interNl ls).head? = (ls.headD []).head? := by
  cases ls with
  | nil => exact absurd rfl hne
  | cons l ms =>
      cases ms with
      | nil => rfl
      | cons m ms' =>
          rw [interNl_cons l (m :: ms') (List.cons_ne_nil m ms')]
          exact head?_append_left l _ (hl l (List.mem_cons_self l _))

lemma interNl_getLast? (ls : List (List Char)) (hne : ls ≠ [])
    (hl : ∀ l ∈ ls, l ≠ []) :
    (interNl ls).getLast? = (ls.getLastD []).getLast? := by
  induction ls with
  | nil => exact absurd rfl hne
  | cons l ms ih =>
      cases ms with
      | nil => rfl
      | cons m ms' =>
          rw [interNl_cons l (m :: ms') (List.cons_ne_nil m ms')]
          have h1 : '\n' :: interNl (m :: ms') = ['\n'] ++ interNl (m :: ms') := rfl
          rw [h1, ← List.append_assoc]
          rw [getLast?_append_right _ _ (interNl_ne_nil (m :: ms')
            (List.cons_ne_nil m ms') (fun x hx => hl x (List.mem_cons_of_mem l hx)))]
          rw [ih (List.cons_ne_nil m ms') (fun x hx => hl x (List.mem_cons_of_mem l hx))]
          rfl

lemma dropWhile_eq_self_of_head (l : List Char)
    (h : ∀ ch, l.head? = some ch → isWsChar ch = false) :
    l.dropWhile isWsChar = l := by
  cases l with
  | nil => rfl
  | cons a t =>
      rw [List.dropWhile_cons, h a rfl]
      rfl

/-- Trimming text of the shape `x ++ "\n"` with `x` not starting or
ending in whitespace just removes the trailing newline. -/
lemma jsTrim_concat_nl (x : List Char) (hx : x ≠ [])
    (hhead : ∀ ch, x.head? = some ch → isWsChar ch = false)
    (hlast : ∀ ch, x.getLast? = some ch → isWsChar ch = false) :
    jsTrimList (x ++ ['\n']) = x := by
  unfold jsTrimList
  rw [dropWhile_eq_self_of_head (x ++ ['\n'])
    (fun ch hch => hhead ch (by rwa [head?_append_left x _ hx] at hch))]
  rw [List.reverse_append]
  show (('\n' :: x.reverse).dropWhile isWsChar).reverse = x
  rw [List.dropWhile_cons]
  rw [show isWsChar '\n' = true from rfl]
  show (x.reverse.dropWhile isWsChar).reverse = x
  rw [dropWhile_eq_self_of_head x.reverse
    (fun ch hch => hlast ch (by rwa [List.head?_reverse] at hch))]
  exact List.reverse_reverse x

/-- The `for (const tx of transactions)` loop of `splitMessage`: if
appending the line (plus newline) would exceed the budget, flush the
trimmed current text as a chunk and start a new chunk from the line
alone (no header); otherwise accumulate; finally flush the trimmed
remainder when non-empty. -/
def splitMsgLoop : List (List Char) → List Char → List (List Char) → List (List Char)
  | chunks, cur, [] =>
      if 0 < (jsTrimList cur).length then chunks ++ [jsTrimList cur] else chunks
  | chunks, cur, t :: ts =>
      if MAX_MSG_LEN < (cur ++ (t ++ ['\n'])).length then
        splitMsgLoop (chunks ++ [jsTrimList cur]) (t ++ ['\n']) ts
      else splitMsgLoop chunks (cur ++ (t ++ ['\n'])) ts

/-- Function `TransactionMonitor.splitMessage` from `monitor.ts`: a message
within the budget is returned whole; otherwise split off the header at
the structural boundary, re-seed the running text with
`header + "\n\n*Transaction: *\n"`, and chop the itemised lines. -/
def splitMessage (msg : List Char) : List (List Char) :=
  if msg.length ≤ MAX_MSG_LEN then [msg]
  else
    match splitOnSep msg with
    | [] => []
    | header :: restParts =>
        splitMsgLoop [] (header ++ txSeparator)
          (splitOnChar '\n' (restParts.headD []))

/-- The itemised transaction lines of one produced chunk: for the first
chunk, the lines after the structural boundary (none when the boundary
is absent); for continuation chunks, all lines. -/
def chunkItemLines (isFirst : Bool) (c : List Char) : List (List Char) :=
  if isFirst then
    match splitOnSep c with
    | _ :: body :: _ => splitOnChar '\n' body
    | _ => []
  else splitOnChar '\n' c

/-- Rejoining the itemised transaction lines of all chunks, ignoring
the header block (which appears only in the first chunk). -/
def recoveredLines : List (List Char) → List (List Char)
  | [] => []
  | c :: cs => chunkItemLines true c ++ (cs.map (chunkItemLines false)).flatten

lemma chunkItemLines_no_sep (c : List Char)
    (h : findOcc txSeparator c = none) : chunkItemLines true c = [] := by
  show (match splitOnSep c with
    | _ :: body :: _ => splitOnChar '\n' body
    | _ => []) = []
  rw [splitOnSep_of_none c h]

lemma chunkItemLines_first (a b : List Char)
    (hocc : ∀ p, txSeparator <+: (a ++ txSeparator ++ b).drop p → p = a.length) :
    chunkItemLines true (a ++ txSeparator ++ b) = splitOnChar '\n' b := by
  show (match splitOnSep (a ++ txSeparator ++ b) with
    | _ :: body :: _ => splitOnChar '\n' body
    | _ => []) = _
  rw [splitOnSep_eq_pair a b hocc]

lemma headD_mem {α : Type} (ls : List α) (d : α) (h : ls ≠ []) : ls.headD d ∈ ls := by
  cases ls with
  | nil => exact absurd rfl h
  | cons a t => exact List.mem_cons_self a t

lemma getLastD_mem {α : Type} : ∀ (ls : List α) (d : α), ls ≠ [] → ls.getLastD d ∈ ls := by
  intro ls
  induction ls with
  | nil => intro d h; exact absurd rfl h
  | cons a t ih =>
      intro d _
      cases t with
      | nil => exact List.mem_cons_self a []
      | cons b t' =>
          rw [List.getLastD_cons]
          exact List.mem_cons_of_mem a (ih a (List.cons_ne_nil b t'))

lemma interNl_append (a b : List (List Char)) (ha : a ≠ []) (hb : b ≠ []) :
    interNl (a ++ b) = interNl a ++ '\n' :: interNl b := by
  induction a with
  | nil => exact absurd rfl ha
  | cons x a' ih =>
      cases a' with
      | nil =>
          show interNl (x :: b) = x ++ '\n' :: interNl b
          exact interNl_cons x b hb
      | cons y a'' =>
          show interNl (x :: (y :: a'' ++ b)) = interNl (x :: y :: a'') ++ '\n' :: interNl b
          rw [interNl_cons x (y :: a'' ++ b) (by simp),
            ih (List.cons_ne_nil y a''),
            interNl_cons x (y :: a'') (List.cons_ne_nil y a'')]
          simp [List.append_assoc]

/-- The trimmed running text of a chunk that carries the header:
trimming `header ++ SEP ++ nlJoin done` yields
`header ++ SEP ++ interNl done` for non-empty `done`. -/
lemma jsTrim_header_chunk (header : List Char) (done : List (List Char))
    (hh : header ≠ [])
    (hhw : ∀ ch, header.head? = some ch → isWsChar ch = false)
    (hdone : ∀ l ∈ done, goodLine l) (hne : done ≠ []) :
    jsTrimList (header ++ txSeparator ++ nlJoin done) =
      header ++ txSeparator ++ interNl done := by
  have hlne : ∀ l ∈ done, l ≠ [] := fun l hl => (hdone l hl).1
  rw [nlJoin_eq_interNl done hne, ← List.append_assoc]
  rw [jsTrim_concat_nl (header ++ txSeparator ++ interNl done)
    (by simp [hh])
    (fun ch hch => hhw ch (by
      rwa [head?_append_left _ _ (by simp [hh]), head?_append_left _ _ hh] at hch))
    (fun ch hch => by
      rw [getLast?_append_right _ _ (interNl_ne_nil done hne hlne)] at hch
      rw [interNl_getLast? done hne hlne] at hch
      exact (hdone (done.getLastD []) (getLastD_mem done [] hne)).2.2.2 ch hch)]

lemma txSeparator_dropLast_concat : txSeparator.dropLast ++ ['\n'] = txSeparator := by
  decide

/-- Trimming the bare header seed `header ++ SEP` just removes the
separator's trailing newline. -/
lemma jsTrim_header_only (header : List Char) (hh : header ≠ [])
    (hhw : ∀ ch, header.head? = some ch → isWsChar ch = false) :
    jsTrimList (header ++ txSeparator) = header ++ txSeparator.dropLast := by
  rw [show header ++ txSeparator = (header ++ txSeparator.dropLast) ++ ['\n'] from by
    rw [List.append_assoc, txSeparator_dropLast_concat]]
  rw [jsTrim_concat_nl (header ++ txSeparator.dropLast)
    (by simp [hh])
    (fun ch hch => hhw ch (by rwa [head?_append_left _ _ hh] at hch))
    (fun ch hch => by
      rw [getLast?_append_right _ _ (by decide)] at hch
      have : ch = '*' := by
        rw [show txSeparator.dropLast.getLast? = some '*' from by decide] at hch
        injection hch with h
        exact h.symm
      rw [this]
      rfl)]

lemma splitMsgLoop_append (c0 : List (List Char)) :
    ∀ (ts cs : List (List Char)) (cur : List Char),
      splitMsgLoop (c0 ++ cs) cur ts = c0 ++ splitMsgLoop cs cur ts := by
  intro ts
  induction ts with
  | nil =>
      intro cs cur
      unfold splitMsgLoop
      by_cases h : 0 < (jsTrimList cur).length
      · rw [if_pos h, if_pos h, List.append_assoc]
      · rw [if_neg h, if_neg h]
  | cons t ts ih =>
      intro cs cur
      unfold splitMsgLoop
      by_cases h : MAX_MSG_LEN < (cur ++ (t ++ ['\n'])).length
      · rw [if_pos h, if_pos h, List.append_assoc]
        exact ih (cs ++ [jsTrimList cur]) (t ++ ['\n'])
      · rw [if_neg h, if_neg h]
        exact ih cs (cur ++ (t ++ ['\n']))

/-- Continuation chunks (no header): processing `ts` with the running
text `nlJoin done` recovers exactly `done ++ ts`. -/
lemma splitMsgLoop_rest :
    ∀ (ts done : List (List Char)), done ≠ [] →
      (∀ l ∈ done, goodLine l) → (∀ l ∈ ts, goodLine l) →
      ((splitMsgLoop [] (nlJoin done) ts).map (chunkItemLines false)).flatten =
        done ++ ts := by
  intro ts
  induction ts with
  | nil =>
      intro done hne hdone _
      have hlne : ∀ l ∈ done, l ≠ [] := fun l hl => (hdone l hl).1
      have htrim : jsTrimList (nlJoin done) = interNl done := by
        rw [nlJoin_eq_interNl done hne]
        exact jsTrim_concat_nl (interNl done)
          (interNl_ne_nil done hne hlne)
          (fun ch hch => by
            rw [interNl_head? done hne hlne] at hch
            exact (hdone (done.headD []) (headD_mem done [] hne)).2.2.1 ch hch)
          (fun ch hch => by
            rw [interNl_getLast? done hne hlne] at hch
            exact (hdone (done.getLastD []) (getLastD_mem done [] hne)).2.2.2 ch hch)
      have hpos : 0 < (jsTrimList (nlJoin done)).length := by
        rw [htrim]
        exact List.length_pos.mpr (interNl_ne_nil done hne hlne)
      unfold splitMsgLoop
      rw [if_pos hpos, htrim]
      show chunkItemLines false (interNl done) ++ [] = done ++ []
      rw [List.append_nil, List.append_nil]
      show splitOnChar '\n' (interNl done) = done
      exact splitOnChar_interNl done hne (fun l hl ch hch => (hdone l hl).2.1 ch hch)
  | cons t ts ih =>
      intro done hne hdone hts
      have hgt : goodLine t := hts t (List.mem_cons_self t ts)
      have hts' : ∀ l ∈ ts, goodLine l := fun l hl => hts l (List.mem_cons_of_mem t hl)
      unfold splitMsgLoop
      by_cases hover : MAX_MSG_LEN < (nlJoin done ++ (t ++ ['\n'])).length
      · rw [if_pos hover]
        rw [show ([] : List (List Char)) ++ [jsTrimList (nlJoin done)] =
          [jsTrimList (nlJoin done)] ++ [] from by simp]
        rw [splitMsgLoop_append [jsTrimList (nlJoin done)] ts [] (t ++ ['\n'])]
        rw [List.singleton_append, List.map_cons, List.flatten_cons]
        have hlne : ∀ l ∈ done, l ≠ [] := fun l hl => (hdone l hl).1
        have htrim : jsTrimList (nlJoin done) = interNl done := by
          rw [nlJoin_eq_interNl done hne]
          exact jsTrim_concat_nl (interNl done)
            (interNl_ne_nil done hne hlne)
            (fun ch hch => by
              rw [interNl_head? done hne hlne] at hch
              exact (hdone (done.headD []) (headD_mem done [] hne)).2.2.1 ch hch)
            (fun ch hch => by
              rw [interNl_getLast? done hne hlne] at hch
              exact (hdone (done.getLastD []) (getLastD_mem done [] hne)).2.2.2 ch hch)
        rw [htrim]
        rw [show chunkItemLines false (interNl done) = splitOnChar '\n' (interNl done)
          from rfl]
        rw [splitOnChar_interNl done hne (fun l hl ch hch => (hdone l hl).2.1 ch hch)]
        rw [show t ++ ['\n'] = nlJoin [t] from rfl]
        rw [ih [t] (List.cons_ne_nil t [])
          (fun l hl => by rw [List.mem_singleton.mp hl]; exact hgt) hts']
        simp
      · rw [if_neg hover]
        rw [show nlJoin done ++ (t ++ ['\n']) = nlJoin (done ++ [t]) from
          (nlJoin_append_single done t).symm]
        rw [ih (done ++ [t]) (by simp)
          (fun l hl => by
            rcases List.mem_append.mp hl with h1 | h1
            · exact hdone l h1
            · rw [List.mem_singleton.mp h1]; exact hgt) hts']
        simp

/-- The first chunk carries the header: processing the remaining lines
`ts` with running text `header ++ SEP ++ nlJoin done` recovers
`done ++ ts`, where `done ++ ts` is the message's full line list. -/
lemma splitMsgLoop_first (header : List Char) (lines : List (List Char))
    (hh : header ≠ [])
    (hhw : ∀ ch, header.head? = some ch → isWsChar ch = false)
    (hlines : ∀ l ∈ lines, goodLine l)
    (hocc : ∀ p, txSeparator <+: (header ++ txSeparator ++ interNl lines).drop p →
      p = header.length) :
    ∀ (ts done : List (List Char)), done ++ ts = lines →
      recoveredLines (splitMsgLoop [] (header ++ txSeparator ++ nlJoin done) ts) =
        done ++ ts := by
  have hnoseps : ∀ p, ¬ txSeparator <+: (header ++ txSeparator.dropLast).drop p := by
    intro p hp
    have hpre : header ++ txSeparator.dropLast <+:
        header ++ txSeparator ++ interNl lines := by
      refine List.IsPrefix.trans ⟨['\n'], ?_⟩ (List.prefix_append _ _)
      rw [List.append_assoc, txSeparator_dropLast_concat]
    have hp1 := hocc p (sep_prefix_mono hpre p hp)
    subst hp1
    have hlen := hp.length_le
    rw [List.drop_left] at hlen
    rw [txSeparator_length] at hlen
    have : txSeparator.dropLast.length = 17 := by decide
    omega
  intro ts
  induction ts with
  | nil =>
      intro done hdt
      rw [List.append_nil] at hdt
      subst hdt
      by_cases hd : done = []
      · subst hd
        rw [show header ++ txSeparator ++ nlJoin [] = header ++ txSeparator from by
          rw [show nlJoin ([] : List (List Char)) = [] from rfl, List.append_nil]]
        unfold splitMsgLoop
        rw [jsTrim_header_only header hh hhw]
        rw [if_pos (List.length_pos.mpr (by simp [hh]))]
        show chunkItemLines true (header ++ txSeparator.dropLast) ++ _ = _
        rw [chunkItemLines_no_sep _ (findOcc_none_of_absent _ _ hnoseps)]
        rfl
      · unfold splitMsgLoop
        rw [jsTrim_header_chunk header done hh hhw hlines hd]
        rw [if_pos (List.length_pos.mpr (by simp [hh]))]
        show chunkItemLines true (header ++ txSeparator ++ interNl done) ++ _ = _
        rw [chunkItemLines_first header (interNl done) hocc]
        rw [splitOnChar_interNl done hd (fun l hl ch hch => (hlines l hl).2.1 ch hch)]
        rfl
  | cons t ts ih =>
      intro done hdt
      have hdone : ∀ l ∈ done, goodLine l := fun l hl =>
        hlines l (hdt ▸ List.mem_append_left _ hl)
      have hgt : goodLine t := hlines t
        (hdt ▸ List.mem_append_right _ (List.mem_cons_self t ts))
      have hts' : ∀ l ∈ ts, goodLine l := fun l hl =>
        hlines l (hdt ▸ List.mem_append_right _ (List.mem_cons_of_mem t hl))
      unfold splitMsgLoop
      by_cases hover : MAX_MSG_LEN <
          ((header ++ txSeparator ++ nlJoin done) ++ (t ++ ['\n'])).length
      · rw [if_pos hover]
        rw [show ([] : List (List Char)) ++
          [jsTrimList (header ++ txSeparator ++ nlJoin done)] =
          [jsTrimList (header ++ txSeparator ++ nlJoin done)] ++ [] from by simp]
        rw [splitMsgLoop_append _ ts [] (t ++ ['\n'])]
        rw [List.singleton_append]
        have hrest : ((splitMsgLoop [] (t ++ ['\n']) ts).map
            (chunkItemLines false)).flatten = [t] ++ ts := by
          rw [show t ++ ['\n'] = nlJoin [t] from rfl]
          exact splitMsgLoop_rest ts [t] (List.cons_ne_nil t [])
            (fun l hl => by rw [List.mem_singleton.mp hl]; exact hgt) hts'
        by_cases hd : done = []
        · subst hd
          rw [show header ++ txSeparator ++ nlJoin [] = header ++ txSeparator from by
            rw [show nlJoin ([] : List (List Char)) = [] from rfl, List.append_nil]]
          rw [jsTrim_header_only header hh hhw]
          show chunkItemLines true (header ++ txSeparator.dropLast) ++ _ = _
          rw [chunkItemLines_no_sep _ (findOcc_none_of_absent _ _ hnoseps)]
          rw [hrest]
          rfl
        · rw [jsTrim_header_chunk header done hh hhw hdone hd]
          show chunkItemLines true (header ++ txSeparator ++ interNl done) ++ _ = _
          have hchunkpre : header ++ txSeparator ++ interNl done <+:
              header ++ txSeparator ++ interNl lines := by
            rw [← hdt, interNl_append done (t :: ts) hd (List.cons_ne_nil t ts)]
            rw [← List.append_assoc]
            exact List.prefix_append _ _
          rw [chunkItemLines_first header (interNl done)
            (fun p hp => hocc p (sep_prefix_mono hchunkpre p hp))]
          rw [splitOnChar_interNl done hd (fun l hl ch hch => (hdone l hl).2.1 ch hch)]
          rw [hrest]
          simp
      · rw [if_neg hover]
        rw [show (header ++ txSeparator ++ nlJoin done) ++ (t ++ ['\n']) =
          header ++ txSeparator ++ nlJoin (done ++ [t]) from by
          rw [nlJoin_append_single]
          simp [List.append_assoc]]
        rw [ih (done ++ [t]) (by rw [← hdt]; simp)]
        simp

/-- C8: splitting an oversized rendered message — header block,
structural boundary, itemised lines joined by `"\n"` — and rejoining
the itemised lines of all resulting chunks (the header appears only in
the first chunk and is ignored) yields exactly the original itemised
lines, in order, none lost, duplicated, or split mid-line.  Hypotheses:
the header is non-empty and does not start with whitespace, every
itemised line is non-empty, single-line and whitespace-free at its
ends, the message exceeds the 4096-character budget, and the separator
occurs only at the structural boundary. -/
theorem C8_split_roundtrip (header : List Char) (lines : List (List Char))
    (hh : header ≠ [])
    (hhw : ∀ ch, header.head? = some ch → isWsChar ch = false)
    (hlines : ∀ l ∈ lines, goodLine l) (hlne : lines ≠ [])
    (hlen : MAX_MSG_LEN < (header ++ txSeparator ++ interNl lines).length)
    (hocc : ∀ p, txSeparator <+: (header ++ txSeparator ++ interNl lines).drop p →
      p = header.length) :
    recoveredLines (splitMessage (header ++ txSeparator ++ interNl lines)) = lines := by
  unfold splitMessage
  rw [if_neg (by omega)]
  rw [splitOnSep_eq_pair header (interNl lines) hocc]
  show recoveredLines (splitMsgLoop [] (header ++ txSeparator)
    (splitOnChar '\n' (interNl lines))) = lines
  rw [splitOnChar_interNl lines hlne (fun l hl ch hch => (hlines l hl).2.1 ch hch)]
  have hmain := splitMsgLoop_first header lines hh hhw hlines hocc lines [] rfl
  rw [show header ++ txSeparator ++ nlJoin [] = header ++ txSeparator from by
    rw [show nlJoin ([] : List (List Char)) = [] from rfl, List.append_nil]] at hmain
  rw [hmain]
  rfl

lemma not_sep_prefix_head {c : Char} {rest : List Char} (h : c ≠ '\n') :
    ¬ txSeparator <+: (c :: rest) := by
  intro hp
  exact h ((List.cons_prefix_cons.mp hp).1.symm)

lemma not_sep_prefix_two {c : Char} {rest : List Char} (h : c ≠ '\n') :
    ¬ txSeparator <+: ('\n' :: c :: rest) := by
  intro hp
  exact h ((List.cons_prefix_cons.mp (List.cons_prefix_cons.mp hp).2).1.symm)

/-- In `'H' ++ SEP ++ 'aaaa…'` the separator occurs only at the
structural boundary (position 1). -/
lemma witness_occ (n : Nat) :
    ∀ p, txSeparator <+:
      ((['H'] ++ txSeparator ++ List.replicate n 'a').drop p) → p = 1 := by
  intro p hp
  rw [show ['H'] ++ txSeparator ++ List.replicate n 'a' =
    'H' :: (txSeparator ++ List.replicate n 'a') from by simp] at hp
  match p with
  | 0 =>
      rw [List.drop_zero] at hp
      exact absurd ((List.cons_prefix_cons.mp hp).1) (by decide)
  | 1 => rfl
  | (q + 2) =>
      exfalso
      rw [show ('H' :: (txSeparator ++ List.replicate n 'a')).drop (q + 2) =
        (txSeparator ++ List.replicate n 'a').drop (q + 1) from rfl] at hp
      by_cases hq : q + 1 ≤ 17
      · rw [List.drop_append_of_le_length (by rw [txSeparator_length]; omega)] at hp
        have hq' : q ≤ 16 := by omega
        interval_cases q
        · exact not_sep_prefix_two (by decide) hp
        · exact not_sep_prefix_head (by decide) hp
        · exact not_sep_prefix_head (by decide) hp
        · exact not_sep_prefix_head (by decide) hp
        · exact not_sep_prefix_head (by decide) hp
        · exact not_sep_prefix_head (by decide) hp
        · exact not_sep_prefix_head (by decide) hp
        · exact not_sep_prefix_head (by decide) hp
        · exact not_sep_prefix_head (by decide) hp
        · exact not_sep_prefix_head (by decide) hp
        · exact not_sep_prefix_head (by decide) hp
        · exact not_sep_prefix_head (by decide) hp
        · exact not_sep_prefix_head (by decide) hp
        · exact not_sep_prefix_head (by decide) hp
        · exact not_sep_prefix_head (by decide) hp
        · exact not_sep_prefix_head (by decide) hp
        · cases n with
          | zero => exact absurd hp.length_le (by decide)
          | succ n' => exact not_sep_prefix_two (by decide) hp
      · rw [show q + 1 = txSeparator.length + (q - 17) from by
          rw [txSeparator_length]; omega] at hp
        rw [List.drop_append, List.drop_replicate] at hp
        cases hk : n - (q - 17) with
        | zero =>
            rw [hk] at hp
            exact absurd hp.length_le (by decide)
        | succ k =>
            rw [hk] at hp
            exact not_sep_prefix_head (by decide) hp

lemma goodLine_replicate_a (n : Nat) (hn : 0 < n) :
    goodLine (List.replicate n 'a') := by
  obtain ⟨m, rfl⟩ : ∃ m, n = m + 1 := ⟨n - 1, by omega⟩
  refine ⟨by simp, ?_, ?_, ?_⟩
  · intro ch hch
    rw [List.eq_of_mem_replicate hch]
    decide
  · intro ch hch
    rw [List.replicate_succ] at hch
    injection hch with h
    rw [← h]
    rfl
  · intro ch hch
    rw [List.replicate_succ'] at hch
    rw [getLast?_append_right _ _ (List.cons_ne_nil 'a' [])] at hch
    injection hch with h
    rw [← h]
    rfl

/-- C8 (witness): concrete instance of `C8_split_roundtrip` on a
4319-character message with a one-character header and a single
4300-character itemised line. -/
theorem C8_split_roundtrip_witness :
    recoveredLines (splitMessage
      (['H'] ++ txSeparator ++ interNl [List.replicate 4300 'a'])) =
      [List.replicate 4300 'a'] := by
  refine C8_split_roundtrip ['H'] [List.replicate 4300 'a']
    (List.cons_ne_nil 'H' []) ?_ ?_ (List.cons_ne_nil _ []) ?_ ?_
  · intro ch hch
    injection hch with h
    rw [← h]
    rfl
  · intro l hl
    rw [List.mem_singleton.mp hl]
    exact goodLine_replicate_a 4300 (by omega)
  · rw [show interNl [List.replicate 4300 'a'] = List.replicate 4300 'a' from rfl]
    rw [List.length_append, List.length_append, txSeparator_length,
      List.length_replicate]
    decide
  · intro p hp
    exact witness_occ 4300 p hp

end Tracker
